import Mathlib

/-!
Verification development for the `matchstick` record-linkage library
(`matchstick/match.py`).

The Python code operates on pandas DataFrames.  We embed a DataFrame as a
`Table`: a list of column names together with a list of rows, where a row is
an association list from column name to cell `Value` (int, string, or null —
null standing for NaN/None).  The pandas primitives the code relies on
(`pd.merge` with suffixes, column assignment, `drop`, `sort_values`,
`drop_duplicates`, `pd.concat`) are embedded as executable Lean functions on
`Table`; the spec treats the relational join/merge primitive as an external
library capability, and the embedding follows pandas' documented behaviour
(inner merge preserving left order, suffixing of colliding non-key columns,
NaN sorted last, stable keep-first deduplication).
-/

set_option maxHeartbeats 1000000

namespace Matchstick

/-- A scalar cell value of a DataFrame: integer, string, or null (NaN/None). -/
inductive Value where
  | int (n : Int)
  | str (s : String)
  | null
deriving DecidableEq, Repr

/-- A row of a DataFrame: an association list from column name to value. -/
abbrev Row := List (String × Value)

/-- Column lookup in a row (`row[c]` on a pandas row), `none` if the column is
absent (pandas would raise a `KeyError`). -/
def Row.get (r : Row) (c : String) : Option Value :=
  (r.find? (fun p => decide (p.1 = c))).map (fun p => p.2)

/-- Column lookup defaulting to null. -/
def Row.getD (r : Row) (c : String) : Value :=
  (Row.get r c).getD Value.null

/-- A DataFrame: ordered column names and ordered rows. -/
structure Table where
  cols : List String
  rows : List Row
deriving DecidableEq, Repr

/-- Well-formedness of a table: every row carries exactly the table's columns,
in order.  (pandas maintains this invariant for every DataFrame.) -/
def Table.WF (t : Table) : Prop :=
  ∀ r ∈ t.rows, r.map Prod.fst = t.cols

/-- `row[c] = v` on a single row: overwrite the entry if the column exists,
append it otherwise (pandas column assignment semantics). -/
def Row.set (r : Row) (c : String) (v : Value) : Row :=
  if r.any (fun p => decide (p.1 = c)) then
    r.map (fun p => if p.1 = c then (c, v) else p)
  else r ++ [(c, v)]

/-- `df[c] = df.apply(f, axis=1)`: set column `c` to a per-row computed value. -/
def Table.setColWith (t : Table) (c : String) (f : Row → Value) : Table :=
  { cols := if c ∈ t.cols then t.cols else t.cols ++ [c]
    rows := t.rows.map (fun r => r.set c (f r)) }

/-- `df[c] = v`: set column `c` to a constant value. -/
def Table.setColConst (t : Table) (c : String) (v : Value) : Table :=
  t.setColWith c (fun _ => v)

/-- `df.drop(c, axis=1)`: remove column `c`. -/
def Table.dropCol (t : Table) (c : String) : Table :=
  { cols := t.cols.filter (fun d => decide (d ≠ c))
    rows := t.rows.map (fun r => r.filter (fun p => decide (p.1 ≠ c))) }

/-! ### The `pd.merge` embedding

`pd.merge(left, right, on=ks, suffixes=(s₁, s₂))`: an inner equi-join on the
`ks` columns.  A column name occurring in both frames and not in `ks` is a
collision and is suffixed with `s₁` on the left and `s₂` on the right; the
`ks` columns appear once, unsuffixed.  Row order is left-major (pandas
preserves the order of the left keys for an inner join). -/

/-- Rename applied to a left-frame column name. -/
def renameLeft (rcols ks : List String) (suf : String) (c : String) : String :=
  if c ∈ rcols ∧ c ∉ ks then c ++ suf else c

/-- Rename applied to a right-frame column name. -/
def renameRight (lcols ks : List String) (suf : String) (c : String) : String :=
  if c ∈ lcols ∧ c ∉ ks then c ++ suf else c

/-- Rename every key of a row. -/
def renameRowKeys (f : String → String) (r : Row) : Row :=
  r.map (fun p => (f p.1, p.2))

/-- Drop the entries of a row whose key is in `cs`. -/
def Row.dropKeys (r : Row) (cs : List String) : Row :=
  r.filter (fun p => decide (p.1 ∉ cs))

/-- The joined output row for a matching left row `a` and right row `b`. -/
def combineRow (lcols rcols ks : List String) (suf : String × String)
    (a b : Row) : Row :=
  renameRowKeys (renameLeft rcols ks suf.1) a ++
    renameRowKeys (renameRight lcols ks suf.2) (Row.dropKeys b ks)

/-- Whether two rows agree on every `ks` column. -/
def keysMatch (ks : List String) (a b : Row) : Bool :=
  ks.all (fun c => decide (Row.get a c = Row.get b c))

/-- Rows of an inner merge, left-major order. -/
def innerRows (ks : List String) (comb : Row → Row → Row) (rrows : List Row) :
    List Row → List Row
  | [] => []
  | a :: as =>
    (rrows.filter (fun b => keysMatch ks a b)).map (comb a) ++
      innerRows ks comb rrows as

/-- Columns of a merge result: left columns (renamed), then right columns
minus the `ks` columns (renamed). -/
def mergeCols (lcols rcols ks : List String) (suf : String × String) :
    List String :=
  lcols.map (renameLeft rcols ks suf.1) ++
    (rcols.filter (fun c => decide (c ∉ ks))).map (renameRight lcols ks suf.2)

/-- `pd.merge(l, r, on=ks, suffixes=suf)` (inner join). -/
def mergeOn (l r : Table) (ks : List String) (suf : String × String) : Table :=
  { cols := mergeCols l.cols r.cols ks suf
    rows := innerRows ks (combineRow l.cols r.cols ks suf) r.rows l.rows }

/-! ### `crossjoin_dataframes` -/

/-- `crossjoin_dataframes(df1, df2, **kwargs)` from `match.py`: copy both
frames, add a constant `__tmp` column to each, merge on `__tmp` (i.e. pair
every row with every row), and drop `__tmp`.  The source mutates only the
copies (`df1.copy()`), so the inputs are untouched; the embedding is
accordingly a pure function of its inputs. -/
def crossjoin_dataframes (df1 df2 : Table)
    (suffixes : String × String := ("_x", "_y")) : Table :=
  let tmp1 := df1.setColConst "__tmp" (Value.int 1)
  let tmp2 := df2.setColConst "__tmp" (Value.int 1)
  (mergeOn tmp1 tmp2 ["__tmp"] suffixes).dropCol "__tmp"

/-- The output row of the cross-join for the left row `a` and right row `b`
(the merged row with the scratch `__tmp` column dropped). -/
def crossRow (df1 df2 : Table) (suffixes : String × String) (a b : Row) : Row :=
  let t1 := df1.setColConst "__tmp" (Value.int 1)
  let t2 := df2.setColConst "__tmp" (Value.int 1)
  (combineRow t1.cols t2.cols ["__tmp"] suffixes
      (a.set "__tmp" (Value.int 1)) (b.set "__tmp" (Value.int 1))).filter
    (fun p => decide (p.1 ≠ "__tmp"))

/-! ### Levenshtein distance

The spec treats the string edit-distance function as an external library
capability (`Levenshtein.distance` in the source).  We embed it by its
standard recursive definition. -/

/-- Levenshtein distance on character lists, fuel-indexed so that the
definition is structurally recursive (and hence kernel-evaluable); the fuel
is always at least the sum of the two lengths, which makes the fallback
clause unreachable. -/
def levDistF : Nat → List Char → List Char → Nat
  | 0, s, t => s.length + t.length
  | _ + 1, [], t => t.length
  | _ + 1, s, [] => s.length
  | fuel + 1, a :: s, b :: t =>
    if a = b then levDistF fuel s t
    else 1 + min (levDistF fuel (a :: s) t)
      (min (levDistF fuel s (b :: t)) (levDistF fuel s t))

/-- Levenshtein distance on character lists: minimum number of single-character
insertions, deletions and substitutions. -/
def levDist (s t : List Char) : Nat :=
  levDistF (s.length + t.length) s t

/-- `Levenshtein.distance` from the python-Levenshtein library. -/
def Levenshtein.distance (a b : String) : Nat :=
  levDist a.data b.data

/-! ### The Matcher -/

/-- The `Matcher` class: two tables with their unique-key field names and the
pair of collision suffixes (default `("_left", "_right")`). -/
structure Matcher where
  left_data : Table
  left_id_field : String
  right_data : Table
  right_id_field : String
  suffixes : String × String

/-- `Matcher.match_on_field(field_list, type_id)`: equi-join the two tables on
`field_list` with the matcher's suffixes, then add `matched_to` (the left key
value of the row) and `match_type` (the rule identifier) columns.  Raising
paths of the source (pandas `KeyError`/merge error on a missing or empty field
list, `KeyError` on `merged_df[left_id_field]` when the key column was
suffixed away by the merge) are modelled as `Except.error`. -/
def Matcher.match_on_field (m : Matcher) (field_list : List String)
    (type_id : Value) : Except String Table :=
  if field_list.isEmpty then Except.error "MergeError: empty field list"
  else if (field_list.all (fun c => decide (c ∈ m.left_data.cols)) &&
      field_list.all (fun c => decide (c ∈ m.right_data.cols))) = true then
    let merged := mergeOn m.left_data m.right_data field_list m.suffixes
    if m.left_id_field ∈ merged.cols then
      Except.ok ((merged.setColWith "matched_to"
        (fun r => Row.getD r m.left_id_field)).setColConst "match_type" type_id)
    else Except.error "KeyError"
  else Except.error "KeyError"

/-- The column of values a fallible per-row function assigns (meaningful when
the function succeeds on every row, which is the only case in which the source
completes the assignment). -/
def funcCol (func : Row → Except String Value) (r : Row) : Value :=
  match func r with
  | Except.ok v => v
  | Except.error _ => Value.null

/-- `Matcher.match_on_function(func, type_id)`, embedded with explicit state
passing: the source mutates `left_data` and `right_data` in place (adds the
derived column via `apply`, and drops it again after the inner exact match,
with no try/finally protecting the drops).  The embedding returns the result
together with the final left and right tables so the effect of every exit
path on the caller's tables is visible.  The derived column name
(`func.__name__` in the source, `'MatchColumn'` when the callable has no
name) is passed explicitly as `match_column`. -/
def Matcher.match_on_function (m : Matcher) (func : Row → Except String Value)
    (match_column : String) (type_id : Value) :
    Except String Table × Table × Table :=
  match m.left_data.rows.mapM func with
  | Except.error e => (Except.error e, m.left_data, m.right_data)
  | Except.ok _ =>
    let left1 := m.left_data.setColWith match_column (funcCol func)
    match m.right_data.rows.mapM func with
    | Except.error e => (Except.error e, left1, m.right_data)
    | Except.ok _ =>
      let right1 := m.right_data.setColWith match_column (funcCol func)
      let m1 : Matcher := { m with left_data := left1, right_data := right1 }
      match m1.match_on_field [match_column] type_id with
      | Except.error e => (Except.error e, left1, right1)
      | Except.ok result =>
        (Except.ok (result.dropCol match_column),
          left1.dropCol match_column, right1.dropCol match_column)

/-! ### The edit-distance matcher -/

/-- One entry of the `fields` list of the levenshtein method:
`{'field_name': ..., 'precision': ...}`.  The precision is an `Int` because
validation only checks `isinstance(precision, int)`, so negative values can
reach the matcher. -/
structure LevField where
  field_name : String
  precision : Int
deriving DecidableEq, Repr

/-- `field['left']`: the suffixed left copy of the field in the cross-join. -/
def LevField.leftCol (f : LevField) (suf : String × String) : String :=
  f.field_name ++ suf.1

/-- `field['right']`: the suffixed right copy of the field. -/
def LevField.rightCol (f : LevField) (suf : String × String) : String :=
  f.field_name ++ suf.2

/-- `field['levenshtein']`: the per-field distance column name. -/
def LevField.levCol (f : LevField) : String :=
  f.field_name ++ "_levenshtein_distance"

/-- The scratch column written (and overwritten) by each pruning step. -/
def ldName : String := "length_diff"

/-- Read a cell as a string, `none` when absent or non-string (Python `len` /
`Levenshtein.distance` on such a value would raise a `TypeError`). -/
def rowStr (r : Row) (c : String) : Option String :=
  match Row.get r c with
  | some (Value.str s) => some s
  | _ => none

/-- The `length_diff` value of a row:
`abs(len(row[field.left]) - len(row[field.right]))`. -/
def lenDiffVal (suf : String × String) (f : LevField) (r : Row) : Value :=
  match rowStr r (f.leftCol suf), rowStr r (f.rightCol suf) with
  | some a, some b => Value.int (((a.length : Int) - (b.length : Int)).natAbs)
  | _, _ => Value.null

/-- The per-field Levenshtein distance value of a row. -/
def distVal (suf : String × String) (f : LevField) (r : Row) : Value :=
  match rowStr r (f.leftCol suf), rowStr r (f.rightCol suf) with
  | some a, some b => Value.int (Levenshtein.distance a b)
  | _, _ => Value.null

/-- `df[c] <= bound` read from a materialized integer column (`False` for
NaN/absent, like the pandas comparison). -/
def intColLE (c : String) (bound : Int) (r : Row) : Bool :=
  match Row.get r c with
  | some (Value.int d) => decide (d ≤ bound)
  | _ => false

/-- Whether the row holds strings in both suffixed copies of the field, i.e.
whether the `apply`-lambdas of the source can evaluate on it. -/
def rowStrOkOne (suf : String × String) (f : LevField) (r : Row) : Bool :=
  (rowStr r (f.leftCol suf)).isSome && (rowStr r (f.rightCol suf)).isSome

/-- One iteration of the pruning loop: materialize the `length_diff` column
for the field and keep the rows where it is at most the field's precision.
Errors when some row has a non-string cell (the `len` call of the source
would raise). -/
def pruneStep (suf : String × String) (t : Table) (f : LevField) :
    Except String Table :=
  if t.rows.all (rowStrOkOne suf f) then
    let t2 := t.setColWith ldName (lenDiffVal suf f)
    Except.ok { t2 with rows := t2.rows.filter (intColLE ldName f.precision) }
  else Except.error "TypeError"

/-- One iteration of the distance loop: materialize the per-field Levenshtein
distance column. -/
def distStep (suf : String × String) (t : Table) (f : LevField) :
    Except String Table :=
  if t.rows.all (rowStrOkOne suf f) then
    Except.ok (t.setColWith (f.levCol) (distVal suf f))
  else Except.error "TypeError"

/-- The conjunction of the per-field threshold filters
(`reduce(and_, filters)` in the source), read from the materialized distance
columns. -/
def allDistOk (fields : List LevField) (r : Row) : Bool :=
  fields.all (fun f => intColLE (f.levCol) f.precision r)

/-- The tagged cross-join the edit-distance matcher starts from. -/
def Matcher.crossedMT (m : Matcher) (type_id : Value) : Table :=
  (crossjoin_dataframes m.left_data m.right_data m.suffixes).setColConst
    "match_type" type_id

/-- `Matcher.levenshtein(fields, type_id)`: assert every configured field is
present on both sides, cross-join with the matcher's suffixes, tag with
`match_type`, prune per field by the length difference, materialize the
per-field distances, add `matched_to`, and keep the rows whose every distance
is within its precision.  An empty `fields` list makes the source's
`reduce(and_, ...)` raise a `TypeError`; a key field suffixed away by the
cross-join makes `crossed[left_id_field]` raise a `KeyError`. -/
def Matcher.levenshtein (m : Matcher) (fields : List LevField)
    (type_id : Value) : Except String Table :=
  if (fields.all (fun f => decide (f.field_name ∈ m.left_data.cols)) &&
      fields.all (fun f => decide (f.field_name ∈ m.right_data.cols))) = true then
    match fields.foldlM (pruneStep m.suffixes) (m.crossedMT type_id) with
    | Except.error e => Except.error e
    | Except.ok pruned =>
      match fields.foldlM (distStep m.suffixes) pruned with
      | Except.error e => Except.error e
      | Except.ok withDist =>
        if fields.isEmpty then
          Except.error "TypeError: reduce() of empty iterable"
        else if m.left_id_field ∈ withDist.cols then
          let wm := withDist.setColWith "matched_to"
            (fun r => Row.getD r m.left_id_field)
          Except.ok { wm with rows := wm.rows.filter (allDistOk fields) }
        else Except.error "KeyError"
  else Except.error "AssertionError"

/-- Modelled from the spec (the reference pipeline of claim C2, not present
in the source): compute the edit distance on **every** cross-joined row, with
no length pruning, and keep those where every field's distance is within its
`max_distance`.  Identical to `Matcher.levenshtein` with the pruning fold
removed (so no `length_diff` column is ever created). -/
def Matcher.levenshteinDirect (m : Matcher) (fields : List LevField)
    (type_id : Value) : Except String Table :=
  if (fields.all (fun f => decide (f.field_name ∈ m.left_data.cols)) &&
      fields.all (fun f => decide (f.field_name ∈ m.right_data.cols))) = true then
    match fields.foldlM (distStep m.suffixes) (m.crossedMT type_id) with
    | Except.error e => Except.error e
    | Except.ok withDist =>
      if fields.isEmpty then
        Except.error "TypeError: reduce() of empty iterable"
      else if m.left_id_field ∈ withDist.cols then
        let wm := withDist.setColWith "matched_to"
          (fun r => Row.getD r m.left_id_field)
        Except.ok { wm with rows := wm.rows.filter (allDistOk fields) }
      else Except.error "KeyError"
  else Except.error "AssertionError"

/-! ### Row update/erase lemmas -/

/-- The overwrite branch of `Row.set`. -/
def Row.replaceVal (r : Row) (c : String) (v : Value) : Row :=
  r.map (fun p => if p.1 = c then (c, v) else p)

def Row.eraseKey (r : Row) (c : String) : Row :=
  r.filter (fun p => decide (p.1 ≠ c))

/-! ### Pruning-refinement infrastructure (claim C2) -/

/-- The per-field length-pruning test computed directly from the field cells
(what the materialized `length_diff` filter decides). -/
def lenOkRaw (suf : String × String) (f : LevField) (r : Row) : Bool :=
  match rowStr r (f.leftCol suf), rowStr r (f.rightCol suf) with
  | some a, some b =>
    decide (((((a.length : Int) - (b.length : Int)).natAbs : Nat) : Int) ≤ f.precision)
  | _, _ => false

/-- The per-field distance test computed directly from the field cells. -/
def distOkRaw (suf : String × String) (f : LevField) (r : Row) : Bool :=
  match rowStr r (f.leftCol suf), rowStr r (f.rightCol suf) with
  | some a, some b => decide ((Levenshtein.distance a b : Int) ≤ f.precision)
  | _, _ => false

/-- No configured field column is named like the scratch `length_diff`
column. -/
abbrev ldFresh (suf : String × String) (fields : List LevField) : Prop :=
  ∀ f ∈ fields, f.leftCol suf ≠ ldName ∧ f.rightCol suf ≠ ldName

/-- No configured field column is named like a per-field distance column. -/
abbrev levFresh (suf : String × String) (fields : List LevField) : Prop :=
  ∀ f ∈ fields, ∀ g ∈ fields,
    f.leftCol suf ≠ g.levCol ∧ f.rightCol suf ≠ g.levCol

/-- Every row of the table has string values in both copies of every
configured field (the regime in which the source code does not raise). -/
abbrev strOkAll (suf : String × String) (fields : List LevField) (t : Table) :
    Prop :=
  ∀ r ∈ t.rows, ∀ f ∈ fields, rowStrOkOne suf f r = true

/-- The table has no `length_diff` column. -/
abbrev noLd (t : Table) : Prop :=
  ldName ∉ t.cols ∧ ∀ r ∈ t.rows, Row.get r ldName = none

/-- The pure row-level effect of the distance loop: materialize every
per-field distance column. -/
def distRowFold (suf : String × String) (fs : List LevField) (r : Row) : Row :=
  fs.foldl (fun r f => Row.set r (f.levCol) (distVal suf f r)) r

/-- The pure column-level effect of the distance loop. -/
def distColsFold (fs : List LevField) (cs : List String) : List String :=
  fs.foldl (fun cs f => if f.levCol ∈ cs then cs else cs ++ [f.levCol]) cs

/-- The test fixture of the repository (`get_levenshtein_data` in
`tests.py`): the left table. -/
def levDf1 : Table :=
  { cols := ["id1", "first", "last"]
    rows := [
      [("id1", Value.int 1), ("first", Value.str "Jack"), ("last", Value.str "Smith")],
      [("id1", Value.int 2), ("first", Value.str "Jane"), ("last", Value.str "Jones")],
      [("id1", Value.int 3), ("first", Value.str "Bob"), ("last", Value.str "Mitten")]] }

/-- The test fixture of the repository: the right table. -/
def levDf2 : Table :=
  { cols := ["id2", "first", "last"]
    rows := [
      [("id2", Value.int 100), ("first", Value.str "Jake"), ("last", Value.str "Smyth")],
      [("id2", Value.int 101), ("first", Value.str "Joan"), ("last", Value.str "Jeans")],
      [("id2", Value.int 102), ("first", Value.str "Bob"), ("last", Value.str "Kitten")]] }

/-- The matcher over the two fixtures, with the default suffixes. -/
def mBob : Matcher :=
  ⟨levDf1, "id1", levDf2, "id2", ("_left", "_right")⟩

/-! ### Deduplication (`remove_duplicate_matches`, `MatchResult.unique_matches`)

`data.sort_values('match_type').drop_duplicates(subset=id_fields,
keep='first')`.  The sort key order is pandas' ascending order with NaN last
(`na_position='last'`); pandas raises on a mixed int/str column, which the
model totalizes by putting all integers before all strings.  `sort_values`
is modelled as a stable sort (as `kind='stable'` guarantees and as numpy's
small-array insertion sort behaves; the spec documents the observed
keep-first behaviour among ties). -/

/-- The `sort_values` key order on cell values: NaN/null last. -/
def valueLE : Value → Value → Bool
  | _, Value.null => true
  | Value.null, _ => false
  | Value.int m, Value.int n => decide (m ≤ n)
  | Value.str a, Value.str b => decide (a ≤ b)
  | Value.int _, Value.str _ => true
  | Value.str _, Value.int _ => false

/-- The sort key of a row: its `match_type` value. -/
def mtKey (r : Row) : Value := Row.getD r "match_type"

/-- Stable insertion into a sorted list (earlier rows stay before rows with
an equal key). -/
def insertRow (r : Row) : List Row → List Row
  | [] => [r]
  | x :: xs =>
    if valueLE (mtKey r) (mtKey x) then r :: x :: xs else x :: insertRow r xs

/-- Stable sort of the rows by `match_type` (`sort_values('match_type')`). -/
def sortRows : List Row → List Row
  | [] => []
  | r :: rs => insertRow r (sortRows rs)

/-- The deduplication key of a row: its values in the id columns. -/
def pairKey (ids : List String) (r : Row) : List (Option Value) :=
  ids.map (Row.get r)

/-- `drop_duplicates(subset=ids, keep='first')`: keep the first occurrence of
each key, tracking the keys already seen. -/
def dropDupFirst (ids : List String) (seen : List (List (Option Value))) :
    List Row → List Row
  | [] => []
  | r :: rs =>
    if pairKey ids r ∈ seen then dropDupFirst ids seen rs
    else r :: dropDupFirst ids (pairKey ids r :: seen) rs

/-- `remove_duplicate_matches(data, id_fields)` from `match.py`: assert the id
fields exist, sort by `match_type` (pandas raises a `KeyError` when that
column is absent) and keep the first row of each (left id, right id) pair. -/
def remove_duplicate_matches (data : Table) (id_fields : List String) :
    Except String Table :=
  if (id_fields.all (fun c => decide (c ∈ data.cols))) = true then
    if "match_type" ∈ data.cols then
      Except.ok { cols := data.cols
                  rows := dropDupFirst id_fields [] (sortRows data.rows) }
    else Except.error "KeyError"
  else Except.error "AssertionError"

/-- The `MatchResult` container produced by `Matcher.create_matches`. -/
structure MatchResult where
  matched_data : Table
  left_id_field : String
  right_id_field : String

/-- The `unique_matches` property: deduplicate the full match set on
(left id, right id). -/
def MatchResult.unique_matches (mr : MatchResult) : Except String Table :=
  remove_duplicate_matches mr.matched_data [mr.left_id_field, mr.right_id_field]

/-- The first row, in list order, among the rows of the `k`-keyed group that
attain the group's minimal `match_type` (a tie between an earlier and a later
row resolves to the earlier row).  This is the row a stable sort by
`match_type` followed by keep-first deduplication retains. -/
def firstMin (ids : List String) (k : List (Option Value)) :
    List Row → Option Row
  | [] => none
  | r :: rs =>
    match firstMin ids k rs with
    | none => if pairKey ids r = k then some r else none
    | some x =>
      if pairKey ids r = k then
        if valueLE (mtKey r) (mtKey x) then some r else some x
      else some x

/-- The duplicate-match fixture of the repository
(`test_remove_duplicate_matches` in `tests.py`). -/
def dfDup : Table :=
  { cols := ["id1", "id2", "match_type"]
    rows := [
      [("id1", Value.int 1), ("id2", Value.int 1), ("match_type", Value.int 1)],
      [("id1", Value.int 1), ("id2", Value.int 1), ("match_type", Value.int 2)],
      [("id1", Value.int 2), ("id2", Value.int 2), ("match_type", Value.int 2)],
      [("id1", Value.int 2), ("id2", Value.int 2), ("match_type", Value.int 3)],
      [("id1", Value.int 2), ("id2", Value.int 2), ("match_type", Value.int 4)],
      [("id1", Value.int 3), ("id2", Value.int 3), ("match_type", Value.null)],
      [("id1", Value.int 3), ("id2", Value.int 3), ("match_type", Value.null)]] }

/-- The deduplicated fixture: one row per pair, lowest `match_type` kept,
first null kept for the all-null pair. -/
def outDup : Table :=
  { cols := ["id1", "id2", "match_type"]
    rows := [
      [("id1", Value.int 1), ("id2", Value.int 1), ("match_type", Value.int 1)],
      [("id1", Value.int 2), ("id2", Value.int 2), ("match_type", Value.int 2)],
      [("id1", Value.int 3), ("id2", Value.int 3), ("match_type", Value.null)]] }

/-! ### Criteria validation and `create_matches` -/

/-- A `precision` value as found in a criteria dict: an `int`, or something
that is not an `int` (e.g. the string `"1"` of the repository's tests). -/
inductive PrecVal where
  | int (n : Int)
  | nonInt (s : String)
deriving DecidableEq, Repr

/-- One entry of a levenshtein criterion's `fields` list; the keys are
optional, as in a Python dict. -/
structure LevEntry where
  field_name : Option String
  precision : Option PrecVal
deriving DecidableEq, Repr

/-- The value under a criterion's `fields` key: a list of field names
(exact-match style) or a list of name/precision dicts (levenshtein style). -/
inductive FieldsPayload where
  | exactFields (fs : List String)
  | levFields (fs : List LevEntry)
deriving DecidableEq, Repr

/-- The value under a criterion's `function` key: a callable (with its
`__name__`) or a non-callable value. -/
inductive FuncVal where
  | callable (name : String) (f : Row → Except String Value)
  | notCallable

/-- One match-criteria dict: every key optional. -/
structure Criterion where
  type_id : Option Value
  method : Option String
  fields : Option FieldsPayload
  function : Option FuncVal

/-- Whether one levenshtein field entry passes validation: `field_name` and
`precision` keys present and `isinstance(precision, int)` — the sign of the
integer is not checked. -/
def levEntryOk (e : LevEntry) : Bool :=
  e.field_name.isSome &&
    (match e.precision with
      | some (PrecVal.int _) => true
      | _ => false)

/-- The per-criterion checks of `Matcher.validate_match_criteria`. -/
def criterionOk (c : Criterion) : Bool :=
  match c.method with
  | none => false
  | some m =>
    (decide (m = "exact_match") || decide (m = "function") ||
        decide (m = "levenshtein")) &&
    (if m = "exact_match" then c.fields.isSome else true) &&
    (if m = "function" then
        (match c.function with
          | some (FuncVal.callable _ _) => true
          | _ => false)
      else true) &&
    (if m = "levenshtein" then
        (match c.fields with
          | some (FieldsPayload.levFields fs) => fs.all levEntryOk
          | _ => false)
      else true)

/-- `Matcher.validate_match_criteria` (a static method): every criterion must
pass its checks; `false` models an `AssertionError`.  Note that an empty
`fields` list passes (`assert 'fields' in keys` only checks presence, and the
per-entry loop is vacuous), and a negative integer precision passes
(`isinstance(precision, int)`). -/
def Matcher.validate_match_criteria (cs : List Criterion) : Bool :=
  cs.all criterionOk

/-- The `match_type.get('type_id')` value (None when absent). -/
def tidValue (c : Criterion) : Value :=
  match c.type_id with
  | some v => v
  | none => Value.null

/-- A levenshtein field dict as consumed by `Matcher.levenshtein`; `none`
models the `KeyError`/`TypeError` raised when the keys are missing or the
precision is not an integer. -/
def levEntryToField (e : LevEntry) : Option LevField :=
  match e.field_name, e.precision with
  | some n, some (PrecVal.int p) => some ⟨n, p⟩
  | _, _ => none

def levEntriesToFields (es : List LevEntry) : Option (List LevField) :=
  es.mapM levEntryToField

/-- Dispatch of one criterion inside `create_matches`, threading the matcher
state (the derived-key method mutates the tables). -/
def Matcher.dispatchCriterion (m : Matcher) (c : Criterion) :
    Except String Table × Matcher :=
  match c.method with
  | some "exact_match" =>
    (match c.fields with
      | some (FieldsPayload.exactFields fs) => (m.match_on_field fs (tidValue c), m)
      | _ => (Except.error "TypeError", m))
  | some "function" =>
    (match c.function with
      | some (FuncVal.callable nm f) =>
        match m.match_on_function f nm (tidValue c) with
        | (res, l, r) => (res, { m with left_data := l, right_data := r })
      | _ => (Except.error "TypeError", m))
  | some "levenshtein" =>
    (match c.fields with
      | some (FieldsPayload.levFields fs) =>
        (match levEntriesToFields fs with
          | some lfs => (m.levenshtein lfs (tidValue c), m)
          | none => (Except.error "KeyError", m))
      | _ => (Except.error "TypeError", m))
  | _ => (Except.error "NameError", m)

/-- The dispatch loop of `create_matches`: one result table per criterion, in
order, stopping at the first raised error. -/
def Matcher.runCriteria (m : Matcher) :
    List Criterion → Except String (List Table) × Matcher
  | [] => (Except.ok [], m)
  | c :: cs =>
    match m.dispatchCriterion c with
    | (Except.error e, m1) => (Except.error e, m1)
    | (Except.ok t, m1) =>
      match m1.runCriteria cs with
      | (Except.ok ts, m2) => (Except.ok (t :: ts), m2)
      | (Except.error e, m2) => (Except.error e, m2)

/-- Column union in order of first appearance (`pd.concat` columns). -/
def unionCols : List Table → List String
  | [] => []
  | t :: ts => t.cols ++ (unionCols ts).filter (fun c => decide (c ∉ t.cols))

/-- Align a row to a column list, null-filling missing cells. -/
def projectRow (cs : List String) (r : Row) : Row :=
  cs.map (fun c => (c, Row.getD r c))

/-- `pd.concat(results)`: rows of every table, aligned to the union columns
(NaN where a table lacks a column). -/
def concatTables (ts : List Table) : Table :=
  { cols := unionCols ts
    rows := (ts.map (fun t => t.rows.map (fun r => projectRow (unionCols ts) r))).flatten }

/-- `df[cs]` column selection (`KeyError` when a column is missing). -/
def selectCols (t : Table) (cs : List String) : Except String Table :=
  if (cs.all (fun c => decide (c ∈ t.cols))) = true then
    Except.ok { cols := cs, rows := t.rows.map (fun r => projectRow cs r) }
  else Except.error "KeyError"

/-- `Matcher.create_matches(match_criteria)`: validate, dispatch each
criterion in order, `pd.concat` the per-rule tables (raises on an empty
list), reduce to the key fields + `match_type`, and re-join the original
left and right data (with pandas' default `_x`/`_y` suffixes). -/
def Matcher.create_matches (m : Matcher) (cs : List Criterion) :
    Except String MatchResult × Matcher :=
  if Matcher.validate_match_criteria cs = true then
    match m.runCriteria cs with
    | (Except.error e, m1) => (Except.error e, m1)
    | (Except.ok results, m1) =>
      match results with
      | [] => (Except.error "ValueError: No objects to concatenate", m1)
      | _ =>
        let combined := concatTables results
        match selectCols combined [m.left_id_field, m.right_id_field, "match_type"] with
        | Except.error e => (Except.error e, m1)
        | Except.ok keyed =>
          if m.left_id_field ∈ m.left_data.cols then
            if m.right_id_field ∈ m.right_data.cols then
              let step1 := mergeOn keyed m.left_data [m.left_id_field] ("_x", "_y")
              let step2 := mergeOn step1 m.right_data [m.right_id_field] ("_x", "_y")
              (Except.ok ⟨step2, m.left_id_field, m.right_id_field⟩, m1)
            else (Except.error "KeyError", m1)
          else (Except.error "KeyError", m1)
  else (Except.error "AssertionError", m)

/-- An exact-match criterion whose field list is empty. -/
def exactEmptyCrit : Criterion :=
  ⟨some (Value.int 1), some "exact_match", some (FieldsPayload.exactFields []), none⟩

/-- A levenshtein criterion whose field/precision list is empty. -/
def levEmptyCrit : Criterion :=
  ⟨some (Value.int 2), some "levenshtein", some (FieldsPayload.levFields []), none⟩

/-- A levenshtein criterion with a negative integer precision. -/
def levNegCrit : Criterion :=
  ⟨some (Value.int 3), some "levenshtein",
    some (FieldsPayload.levFields [⟨some "first", some (PrecVal.int (-1))⟩]), none⟩

/-- The invalid-precision criterion of the repository's tests
(`levenshtein_invalid_precision`: precision is the string `"1"`). -/
def levBadPrecCrit : Criterion :=
  ⟨some (Value.int 4), some "levenshtein",
    some (FieldsPayload.levFields
      [⟨some "first_name", some (PrecVal.nonInt "1")⟩]), none⟩

/-! ### The derived-key error path (claim C4) -/

/-- Left table for the derived-key failure scenario: its record carries an
`extra` field. -/
def funcDf1 : Table :=
  { cols := ["id1", "extra"]
    rows := [[("id1", Value.int 1), ("extra", Value.str "a")]] }

/-- Right table without the `extra` field: the derived-key function raises
here. -/
def funcDf2 : Table :=
  { cols := ["id2"]
    rows := [[("id2", Value.int 100)]] }

def mFunc : Matcher := ⟨funcDf1, "id1", funcDf2, "id2", ("_left", "_right")⟩

/-- The derived-key function `lambda row: row['extra']`: raises a `KeyError`
on a record without the field. -/
def extraFunc (r : Row) : Except String Value :=
  match Row.get r "extra" with
  | some v => Except.ok v
  | none => Except.error "KeyError: extra"

/-! ### Suffixing of match-result columns (claim C9) -/

/-- Self-linkage left table: key field named `id` like the right table's. -/
def selfDf1 : Table :=
  { cols := ["id", "f"]
    rows := [[("id", Value.int 1), ("f", Value.str "a")]] }

/-- Self-linkage right table with the same key field name `id`. -/
def selfDf2 : Table :=
  { cols := ["id", "f"]
    rows := [[("id", Value.int 2), ("f", Value.str "a")]] }

def mSelf : Matcher := ⟨selfDf1, "id", selfDf2, "id", ("_left", "_right")⟩

/-! ### `Matcher.unmatched` (claim C7) -/

/-- The row a `how='right'` merge emits for a right row with no matching left
row: the left columns (renamed) carry null, except the join key, which carries
the right row's key value; then the right row's non-key entries (renamed). -/
def rightOnlyRow (lcols rcols : List String) (rid : String)
    (suf : String × String) (b : Row) : Row :=
  renameRowKeys (renameLeft rcols [rid] suf.1)
      (lcols.map (fun c => (c, if c = rid then Row.getD b rid else Value.null))) ++
    renameRowKeys (renameRight lcols [rid] suf.2) (Row.dropKeys b [rid])

/-- The block of output rows one right row contributes to a `how='right'`,
`indicator=True` merge: the combined rows (tagged `both`) when left matches
exist, otherwise a single null-padded row (tagged `right_only`). -/
def rightRowsOne (lcols rcols : List String) (rid : String)
    (suf : String × String) (lrows : List Row) (b : Row) : List Row :=
  if (lrows.filter (fun a => keysMatch [rid] a b)).isEmpty then
    [rightOnlyRow lcols rcols rid suf b ++ [("_merge", Value.str "right_only")]]
  else
    (lrows.filter (fun a => keysMatch [rid] a b)).map (fun a =>
      combineRow lcols rcols [rid] suf a b ++ [("_merge", Value.str "both")])

/-- Rows of a `how='right'` merge with indicator, right-major order (pandas
preserves the right frame's row order for a right join, and the left frame's
order among the matches of one right row). -/
def rightRowsAll (lcols rcols : List String) (rid : String)
    (suf : String × String) (lrows : List Row) : List Row → List Row
  | [] => []
  | b :: bs => rightRowsOne lcols rcols rid suf lrows b ++
      rightRowsAll lcols rcols rid suf lrows bs

/-- `pd.merge(l, r, on=rid, how='right', indicator=True)`: `KeyError` when the
join key is missing from either frame, `ValueError` when a `_merge` column
already exists (pandas refuses to overwrite the indicator column). -/
def rightMergeInd (l r : Table) (rid : String) (suf : String × String) :
    Except String Table :=
  if rid ∈ l.cols ∧ rid ∈ r.cols then
    if "_merge" ∈ l.cols ∨ "_merge" ∈ r.cols then
      Except.error "ValueError: indicator column _merge exists"
    else Except.ok
      { cols := mergeCols l.cols r.cols [rid] suf ++ ["_merge"]
        rows := rightRowsAll l.cols r.cols rid suf l.rows r.rows }
  else Except.error "KeyError"

/-- `df[df[c] == v]` boolean-mask row filtering. -/
def Table.filterEq (t : Table) (c : String) (v : Value) : Table :=
  { cols := t.cols
    rows := t.rows.filter (fun r => decide (Row.getD r c = v)) }

/-- `pd.merge(l, r)` with no `on` argument: inner join on the common columns
(in left order); pandas raises `MergeError` when no column is shared. -/
def naturalMerge (l r : Table) : Except String Table :=
  if (l.cols.filter (fun c => decide (c ∈ r.cols))).isEmpty then
    Except.error "MergeError: no common columns"
  else
    Except.ok (mergeOn l r (l.cols.filter (fun c => decide (c ∈ r.cols)))
      ("_x", "_y"))

/-- `Matcher.unmatched(match_results)` from `match.py`: right-merge the match
set onto `right_data` with an indicator column (pandas default `_x`/`_y`
suffixes), keep the `right_only` rows, natural-join them back with
`right_data`, and select `right_data`'s columns. -/
def Matcher.unmatched (m : Matcher) (match_results : Table) :
    Except String Table :=
  match rightMergeInd match_results m.right_data m.right_id_field
      ("_x", "_y") with
  | Except.error e => Except.error e
  | Except.ok merged =>
    match naturalMerge m.right_data
        (merged.filterEq "_merge" (Value.str "right_only")) with
    | Except.error e => Except.error e
    | Except.ok joined => selectCols joined m.right_data.cols

/-- The table produced by the indicator right-merge of `Matcher.unmatched`
(used to organize the proof of its correctness theorem). -/
def rightMergeTable (mr R : Table) (rid : String) : Table :=
  { cols := mergeCols mr.cols R.cols [rid] ("_x", "_y") ++ ["_merge"]
    rows := rightRowsAll mr.cols R.cols rid ("_x", "_y") mr.rows R.rows }

/-- The `right_only` selection of the indicator right-merge (used to organize
the proof of the `Matcher.unmatched` correctness theorem). -/
def roTable (mr R : Table) (rid : String) : Table :=
  { cols := mergeCols mr.cols R.cols [rid] ("_x", "_y") ++ ["_merge"]
    rows := (R.rows.filter (fun b =>
        (mr.rows.filter (fun a => keysMatch [rid] a b)).isEmpty)).map
      (fun b => rightOnlyRow mr.cols R.cols rid ("_x", "_y") b ++
        [("_merge", Value.str "right_only")]) }

/-- Match-set fixture for the `unmatched` witness: one match made, onto the
right record with key 100. -/
def unmMR : Table :=
  { cols := ["id1", "id2", "match_type"]
    rows := [[("id1", Value.int 1), ("id2", Value.int 100),
      ("match_type", Value.int 0)]] }

/-- Right-table fixture for the `unmatched` witness: two records, keys 100
and 101. -/
def unmRight : Table :=
  { cols := ["id2", "name"]
    rows := [[("id2", Value.int 100), ("name", Value.str "Alice")],
      [("id2", Value.int 101), ("name", Value.str "Bea")]] }

/-- Left-table fixture for the `unmatched` witness (not consulted by
`unmatched`). -/
def unmLeft : Table :=
  { cols := ["id1"], rows := [[("id1", Value.int 1)]] }

/-- Matcher fixture for the `unmatched` witness. -/
def mUnm : Matcher := ⟨unmLeft, "id1", unmRight, "id2", ("_left", "_right")⟩


/-! ### Theorems -/

/-! ### Basic row lemmas -/

theorem Row.get_set_self (r : Row) (c : String) (v : Value) :
    (r.set c v).get c = some v := by
  unfold Row.set
  split
  · rename_i h
    induction r with
    | nil => simp at h
    | cons p rs ih =>
      by_cases hp : p.1 = c
      · simp [Row.get, List.find?, hp]
      · simp only [List.any_cons, decide_eq_true_eq, hp] at h
        simp only [Bool.false_or, decide_False] at h
        simp only [List.map_cons, hp, if_false]
        rw [Row.get] at ih ⊢
        simp only [List.find?, decide_eq_true_eq, hp, if_false]
        exact ih (by simpa using h)
  · induction r with
    | nil => simp [Row.get, List.find?]
    | cons p rs ih =>
      rename_i h
      simp only [List.any_cons, Bool.or_eq_true, decide_eq_true_eq] at h
      push_neg at h
      rw [Row.get]
      simp only [List.cons_append, List.find?, decide_eq_true_eq, h.1, if_false]
      rw [Row.get] at ih
      exact ih (by simp [h.2])

theorem innerRows_mem (ks : List String) (comb : Row → Row → Row)
    (rrows lrows : List Row) (x : Row) :
    x ∈ innerRows ks comb rrows lrows ↔
      ∃ a ∈ lrows, ∃ b ∈ rrows, keysMatch ks a b = true ∧ x = comb a b := by
  induction lrows with
  | nil => simp [innerRows]
  | cons a as ih =>
    simp only [innerRows, List.mem_append, List.mem_map, List.mem_filter, ih]
    constructor
    · rintro (⟨b, ⟨hb, hm⟩, rfl⟩ | ⟨a', ha', b, hb, hm, rfl⟩)
      · exact ⟨a, List.mem_cons_self _ _, b, hb, hm, rfl⟩
      · exact ⟨a', List.mem_cons_of_mem _ ha', b, hb, hm, rfl⟩
    · rintro ⟨a', ha', b, hb, hm, rfl⟩
      rcases List.mem_cons.mp ha' with rfl | ha'
      · exact Or.inl ⟨b, ⟨hb, hm⟩, rfl⟩
      · exact Or.inr ⟨a', ha', b, hb, hm, rfl⟩

theorem innerRows_length_all (ks : List String) (comb : Row → Row → Row)
    (rrows lrows : List Row)
    (h : ∀ a ∈ lrows, ∀ b ∈ rrows, keysMatch ks a b = true) :
    (innerRows ks comb rrows lrows).length = lrows.length * rrows.length := by
  induction lrows with
  | nil => simp [innerRows]
  | cons a as ih =>
    have hfilter : rrows.filter (fun b => keysMatch ks a b) = rrows := by
      apply List.filter_eq_self.mpr
      intro b hb
      exact h a (List.mem_cons_self _ _) b hb
    simp only [innerRows, List.length_append, List.length_map, hfilter]
    rw [ih (fun a' ha' b hb => h a' (List.mem_cons_of_mem _ ha') b hb),
      List.length_cons]
    ring

theorem keysMatch_tmp (a b : Row) :
    keysMatch ["__tmp"] (a.set "__tmp" (Value.int 1))
      (b.set "__tmp" (Value.int 1)) = true := by
  simp [keysMatch, Row.get_set_self]

/-- C6: for every pair of input tables of sizes m and n, the cartesian join
(`crossjoin_dataframes`) produces a table with exactly m × n rows, every
combination of a left record and a right record occurs in the result, and
every result row is such a combination.  (The source copies its inputs before
adding the scratch `__tmp` column, so the input tables are unchanged; the
embedding is accordingly a pure function of the inputs.) -/
theorem crossjoin_correct (df1 df2 : Table) (suf : String × String) :
    (crossjoin_dataframes df1 df2 suf).rows.length
        = df1.rows.length * df2.rows.length ∧
    (∀ a ∈ df1.rows, ∀ b ∈ df2.rows,
        crossRow df1 df2 suf a b ∈ (crossjoin_dataframes df1 df2 suf).rows) ∧
    (∀ x ∈ (crossjoin_dataframes df1 df2 suf).rows,
        ∃ a ∈ df1.rows, ∃ b ∈ df2.rows, x = crossRow df1 df2 suf a b) := by
  have hrows : (crossjoin_dataframes df1 df2 suf).rows =
      (innerRows ["__tmp"]
        (combineRow (df1.setColConst "__tmp" (Value.int 1)).cols
          (df2.setColConst "__tmp" (Value.int 1)).cols ["__tmp"] suf)
        ((df2.setColConst "__tmp" (Value.int 1)).rows)
        ((df1.setColConst "__tmp" (Value.int 1)).rows)).map
        (fun r => r.filter (fun p => decide (p.1 ≠ "__tmp"))) := rfl
  refine ⟨?_, ?_, ?_⟩
  · rw [hrows, List.length_map, innerRows_length_all]
    · simp [Table.setColConst, Table.setColWith]
    · intro a ha b hb
      simp only [Table.setColConst, Table.setColWith, List.mem_map] at ha hb
      obtain ⟨a0, _, rfl⟩ := ha
      obtain ⟨b0, _, rfl⟩ := hb
      exact keysMatch_tmp a0 b0
  · intro a ha b hb
    rw [hrows]
    refine List.mem_map.mpr ⟨_, (innerRows_mem _ _ _ _ _).mpr
      ⟨a.set "__tmp" (Value.int 1), ?_, b.set "__tmp" (Value.int 1), ?_,
        keysMatch_tmp a b, rfl⟩, rfl⟩
    · simp only [Table.setColConst, Table.setColWith, List.mem_map]
      exact ⟨a, ha, rfl⟩
    · simp only [Table.setColConst, Table.setColWith, List.mem_map]
      exact ⟨b, hb, rfl⟩
  · intro x hx
    rw [hrows] at hx
    obtain ⟨y, hy, rfl⟩ := List.mem_map.mp hx
    obtain ⟨a', ha', b', hb', _, rfl⟩ := (innerRows_mem _ _ _ _ _).mp hy
    simp only [Table.setColConst, Table.setColWith, List.mem_map] at ha' hb'
    obtain ⟨a0, ha0, rfl⟩ := ha'
    obtain ⟨b0, hb0, rfl⟩ := hb'
    exact ⟨a0, ha0, b0, hb0, rfl⟩

theorem levDistF_succ_cons (n : Nat) (a b : Char) (s t : List Char) :
    levDistF (n + 1) (a :: s) (b :: t) =
      if a = b then levDistF n s t
      else 1 + min (levDistF n (a :: s) t)
        (min (levDistF n s (b :: t)) (levDistF n s t)) := rfl

theorem levDistF_congr :
    ∀ fuel₁ fuel₂ s t, s.length + t.length ≤ fuel₁ →
      s.length + t.length ≤ fuel₂ → levDistF fuel₁ s t = levDistF fuel₂ s t := by
  intro fuel₁
  induction fuel₁ with
  | zero =>
    intro fuel₂ s t h1 _
    have hs : s = [] := by cases s <;> simp_all
    have ht : t = [] := by cases t <;> simp_all
    subst hs; subst ht
    cases fuel₂ <;> rfl
  | succ n ih =>
    intro fuel₂ s t h1 h2
    cases s with
    | nil =>
      cases t with
      | nil => cases fuel₂ <;> rfl
      | cons b t =>
        cases fuel₂ with
        | zero => simp at h2
        | succ m => rfl
    | cons a s =>
      cases t with
      | nil =>
        cases fuel₂ with
        | zero => simp at h2
        | succ m => rfl
      | cons b t =>
        cases fuel₂ with
        | zero => simp at h2
        | succ m =>
          simp only [List.length_cons] at h1 h2
          rw [levDistF_succ_cons, levDistF_succ_cons]
          by_cases hab : a = b
          · rw [if_pos hab, if_pos hab]
            exact ih m s t (by omega) (by omega)
          · rw [if_neg hab, if_neg hab]
            rw [ih m (a :: s) t (by simp; omega) (by simp; omega),
              ih m s (b :: t) (by simp; omega) (by simp; omega),
              ih m s t (by omega) (by omega)]

/-- The recurrence satisfied by `levDist` (the usual defining equations). -/
theorem levDist_cons_cons (a b : Char) (s t : List Char) :
    levDist (a :: s) (b :: t) =
      if a = b then levDist s t
      else 1 + min (levDist (a :: s) t) (min (levDist s (b :: t)) (levDist s t)) := by
  show levDistF ((a :: s).length + (b :: t).length) (a :: s) (b :: t) = _
  have hlen : (a :: s).length + (b :: t).length = (s.length + 1 + t.length) + 1 := by
    simp; omega
  rw [hlen, levDistF_succ_cons]
  by_cases hab : a = b
  · rw [if_pos hab, if_pos hab]
    exact levDistF_congr (s.length + 1 + t.length) (s.length + t.length) s t
      (by omega) (by omega)
  · rw [if_neg hab, if_neg hab]
    rw [levDistF_congr (s.length + 1 + t.length) ((a :: s).length + t.length)
        (a :: s) t (by simp) (by simp),
      levDistF_congr (s.length + 1 + t.length) (s.length + (b :: t).length)
        s (b :: t) (by simp; omega) (by simp),
      levDistF_congr (s.length + 1 + t.length) (s.length + t.length)
        s t (by omega) (by omega)]
    rfl

theorem levDist_nil_left (t : List Char) : levDist [] t = t.length := by
  cases t <;> rfl

theorem levDist_nil_right (s : List Char) : levDist s [] = s.length := by
  cases s <;> rfl

/-- The edit distance is at least the difference in length (both directions):
the rationale of the pruning step in `Matcher.levenshtein`. -/
theorem levDist_length_bound (s t : List Char) :
    t.length ≤ levDist s t + s.length ∧ s.length ≤ levDist s t + t.length := by
  suffices h : ∀ fuel (s t : List Char), s.length + t.length ≤ fuel →
      t.length ≤ levDistF fuel s t + s.length ∧
      s.length ≤ levDistF fuel s t + t.length by
    exact h _ s t (le_refl _)
  intro fuel
  induction fuel with
  | zero =>
    intro s t h
    have hs : s = [] := by cases s <;> simp_all
    have ht : t = [] := by cases t <;> simp_all
    subst hs; subst ht
    simp [levDistF]
  | succ n ih =>
    intro s t h
    cases s with
    | nil => simp [levDistF]
    | cons a s =>
      cases t with
      | nil => simp [levDistF]
      | cons b t =>
        simp only [List.length_cons] at h ⊢
        rw [levDistF_succ_cons]
        by_cases hab : a = b
        · rw [if_pos hab]
          have := ih s t (by omega)
          omega
        · rw [if_neg hab]
          have h1 := ih (a :: s) t (by simp; omega)
          have h2 := ih s (b :: t) (by simp; omega)
          have h3 := ih s t (by omega)
          simp only [List.length_cons] at h1 h2 h3
          omega

/-- The pruning bound in the form used by the matcher: the absolute length
difference never exceeds the edit distance. -/
theorem length_diff_le_distance (a b : String) :
    ((a.length : Int) - (b.length : Int)).natAbs ≤ Levenshtein.distance a b := by
  have h := levDist_length_bound a.data b.data
  have ha : a.length = a.data.length := rfl
  have hb : b.length = b.data.length := rfl
  rw [Levenshtein.distance]
  omega

theorem Row.set_eq (r : Row) (c : String) (v : Value) :
    Row.set r c v =
      if r.any (fun p => decide (p.1 = c)) then Row.replaceVal r c v
      else r ++ [(c, v)] := rfl

theorem Row.get_append (r s : Row) (c : String) :
    Row.get (r ++ s) c =
      match Row.get r c with
      | some v => some v
      | none => Row.get s c := by
  induction r with
  | nil => simp [Row.get]
  | cons p rs ih =>
    by_cases hp : p.1 = c
    · rw [List.cons_append, Row.get, Row.get,
        List.find?_cons_of_pos _ (by simp [hp]),
        List.find?_cons_of_pos _ (by simp [hp])]
      rfl
    · rw [List.cons_append, Row.get, Row.get,
        List.find?_cons_of_neg _ (by simp [hp]),
        List.find?_cons_of_neg _ (by simp [hp])]
      exact ih

theorem Row.get_replaceVal_ne (r : Row) {c d : String} (v : Value) (h : d ≠ c) :
    (Row.replaceVal r c v).get d = Row.get r d := by
  induction r with
  | nil => rfl
  | cons p rs ih =>
    simp only [Row.replaceVal, List.map_cons] at ih ⊢
    by_cases hp : p.1 = c
    · rw [if_pos hp, Row.get, Row.get,
        List.find?_cons_of_neg _ (by simp; exact Ne.symm h),
        List.find?_cons_of_neg _ (by simp [hp]; exact Ne.symm h)]
      exact ih
    · rw [if_neg hp, Row.get, Row.get]
      by_cases hd : p.1 = d
      · rw [List.find?_cons_of_pos _ (by simp [hd]),
          List.find?_cons_of_pos _ (by simp [hd])]
      · rw [List.find?_cons_of_neg _ (by simp [hd]),
          List.find?_cons_of_neg _ (by simp [hd])]
        exact ih

theorem Row.get_set_ne (r : Row) {c d : String} (v : Value) (h : d ≠ c) :
    (Row.set r c v).get d = Row.get r d := by
  rw [Row.set_eq]
  split
  · exact Row.get_replaceVal_ne r v h
  · rw [Row.get_append]
    have h1 : Row.get [(c, v)] d = none := by
      rw [Row.get, List.find?_cons_of_neg _ (by simp; exact Ne.symm h)]
      rfl
    rw [h1]
    cases hg : Row.get r d <;> rfl

theorem Row.eraseKey_replaceVal_self (r : Row) (c : String) (v : Value) :
    Row.eraseKey (Row.replaceVal r c v) c = Row.eraseKey r c := by
  induction r with
  | nil => rfl
  | cons p rs ih =>
    simp only [Row.replaceVal, List.map_cons] at ih ⊢
    by_cases hp : p.1 = c
    · rw [if_pos hp, Row.eraseKey, Row.eraseKey,
        List.filter_cons_of_neg (by simp),
        List.filter_cons_of_neg (by simp [hp])]
      exact ih
    · rw [if_neg hp, Row.eraseKey, Row.eraseKey,
        List.filter_cons_of_pos (by simp [hp]),
        List.filter_cons_of_pos (by simp [hp])]
      rw [Row.eraseKey, Row.eraseKey] at ih
      rw [ih]

theorem Row.eraseKey_append (r s : Row) (c : String) :
    Row.eraseKey (r ++ s) c = Row.eraseKey r c ++ Row.eraseKey s c := by
  simp [Row.eraseKey, List.filter_append]

theorem Row.eraseKey_set_self (r : Row) (c : String) (v : Value) :
    Row.eraseKey (Row.set r c v) c = Row.eraseKey r c := by
  rw [Row.set_eq]
  split
  · exact Row.eraseKey_replaceVal_self r c v
  · rw [Row.eraseKey_append]
    have h1 : Row.eraseKey [(c, v)] c = [] := by
      rw [Row.eraseKey, List.filter_cons_of_neg (by simp)]
      rfl
    rw [h1, List.append_nil]

theorem Row.eraseKey_replaceVal_ne (r : Row) {c d : String} (v : Value)
    (h : c ≠ d) :
    Row.eraseKey (Row.replaceVal r c v) d =
      Row.replaceVal (Row.eraseKey r d) c v := by
  induction r with
  | nil => rfl
  | cons p rs ih =>
    simp only [Row.replaceVal, List.map_cons] at ih ⊢
    by_cases hp : p.1 = c
    · have hpd : ¬ p.1 = d := fun hd => h (hp.symm.trans hd)
      rw [if_pos hp, Row.eraseKey, Row.eraseKey,
        List.filter_cons_of_pos (by simp [h]),
        List.filter_cons_of_pos (by simp [hpd]),
        List.map_cons, if_pos hp]
      rw [Row.eraseKey, Row.eraseKey] at ih
      rw [ih]
    · by_cases hd : p.1 = d
      · rw [if_neg hp, Row.eraseKey, Row.eraseKey,
          List.filter_cons_of_neg (by simp [hd]),
          List.filter_cons_of_neg (by simp [hd])]
        rw [Row.eraseKey, Row.eraseKey] at ih
        rw [ih]
      · rw [if_neg hp, Row.eraseKey, Row.eraseKey,
          List.filter_cons_of_pos (by simp [hd]),
          List.filter_cons_of_pos (by simp [hd]),
          List.map_cons, if_neg hp]
        rw [Row.eraseKey, Row.eraseKey] at ih
        rw [ih]

theorem Row.any_key_eraseKey_ne (r : Row) {c d : String} (h : c ≠ d) :
    (Row.eraseKey r d).any (fun p => decide (p.1 = c)) =
      r.any (fun p => decide (p.1 = c)) := by
  induction r with
  | nil => rfl
  | cons p rs ih =>
    by_cases hd : p.1 = d
    · have hpc : ¬ p.1 = c := fun hc => h (hc.symm.trans hd)
      rw [Row.eraseKey, List.filter_cons_of_neg (by simp [hd]), List.any_cons]
      rw [Row.eraseKey] at ih
      rw [ih]
      simp [hpc]
    · rw [Row.eraseKey, List.filter_cons_of_pos (by simp [hd]),
        List.any_cons, List.any_cons]
      rw [Row.eraseKey] at ih
      rw [ih]

theorem Row.eraseKey_set_ne (r : Row) {c d : String} (v : Value) (h : c ≠ d) :
    Row.eraseKey (Row.set r c v) d = Row.set (Row.eraseKey r d) c v := by
  rw [Row.set_eq, Row.set_eq, Row.any_key_eraseKey_ne r h]
  split
  · exact Row.eraseKey_replaceVal_ne r v h
  · rw [Row.eraseKey_append]
    have h1 : Row.eraseKey [(c, v)] d = [(c, v)] := by
      rw [Row.eraseKey, List.filter_cons_of_pos (by simp [h])]
      rfl
    rw [h1]

theorem Row.replaceVal_replaceVal_self (r : Row) (c : String) (v w : Value) :
    Row.replaceVal (Row.replaceVal r c v) c w = Row.replaceVal r c w := by
  simp only [Row.replaceVal, List.map_map]
  apply List.map_congr_left
  intro p _
  by_cases hp : p.1 = c <;> simp [Function.comp, hp]

theorem Row.any_key_replaceVal (r : Row) (c d : String) (v : Value) :
    (Row.replaceVal r c v).any (fun p => decide (p.1 = d)) =
      r.any (fun p => decide (p.1 = d)) := by
  induction r with
  | nil => rfl
  | cons p rs ih =>
    simp only [Row.replaceVal, List.map_cons] at ih ⊢
    by_cases hp : p.1 = c
    · rw [if_pos hp, List.any_cons, List.any_cons, ih]
      congr 1
      simp [hp]
    · rw [if_neg hp, List.any_cons, List.any_cons, ih]

theorem Row.set_set_self (r : Row) (c : String) (v w : Value) :
    Row.set (Row.set r c v) c w = Row.set r c w := by
  rw [Row.set_eq r, Row.set_eq r]
  by_cases hany : r.any (fun p => decide (p.1 = c)) = true
  · rw [if_pos hany, if_pos hany, Row.set_eq, Row.any_key_replaceVal,
      if_pos hany]
    exact Row.replaceVal_replaceVal_self r c v w
  · rw [if_neg hany, if_neg hany, Row.set_eq]
    have hany2 : ((r ++ [(c, v)]).any (fun p => decide (p.1 = c))) = true := by
      simp
    rw [if_pos hany2]
    show Row.replaceVal (r ++ [(c, v)]) c w = r ++ [(c, w)]
    have h1 : Row.replaceVal r c w = r := by
      have h2 : Row.replaceVal r c w = r.map id := by
        apply List.map_congr_left
        intro p hp
        have hpc : ¬ p.1 = c := fun hc =>
          hany (List.any_eq_true.mpr ⟨p, hp, by simp [hc]⟩)
        simp [hpc]
      simpa using h2
    calc Row.replaceVal (r ++ [(c, v)]) c w
        = Row.replaceVal r c w ++ Row.replaceVal [(c, v)] c w := by
          simp [Row.replaceVal]
      _ = r ++ [(c, w)] := by rw [h1]; simp [Row.replaceVal]

theorem Row.eraseKey_of_get_none (r : Row) (c : String)
    (h : Row.get r c = none) : Row.eraseKey r c = r := by
  apply List.filter_eq_self.mpr
  intro p hp
  simp only [decide_eq_true_eq]
  intro hpc
  rw [Row.get] at h
  have h2 : r.find? (fun p => decide (p.1 = c)) = none := by
    cases hf : r.find? (fun p => decide (p.1 = c)) with
    | none => rfl
    | some q => rw [hf] at h; simp at h
  rw [List.find?_eq_none] at h2
  exact (h2 p hp) (by simp [hpc])

theorem Row.get_eraseKey_ne (r : Row) {c d : String} (h : c ≠ d) :
    (Row.eraseKey r d).get c = Row.get r c := by
  induction r with
  | nil => rfl
  | cons p rs ih =>
    by_cases hd : p.1 = d
    · have hpc : ¬ p.1 = c := fun hc => h (hc.symm.trans hd)
      rw [Row.eraseKey, List.filter_cons_of_neg (by simp [hd]), Row.get,
        Row.get, List.find?_cons_of_neg _ (by simp [hpc])]
      rw [Row.eraseKey, Row.get] at ih
      exact ih
    · by_cases hc : p.1 = c
      · rw [Row.eraseKey, List.filter_cons_of_pos (by simp [hd]), Row.get,
          Row.get, List.find?_cons_of_pos _ (by simp [hc]),
          List.find?_cons_of_pos _ (by simp [hc])]
      · rw [Row.eraseKey, List.filter_cons_of_pos (by simp [hd]), Row.get,
          Row.get, List.find?_cons_of_neg _ (by simp [hc]),
          List.find?_cons_of_neg _ (by simp [hc])]
        rw [Row.eraseKey] at ih
        exact ih

theorem Table.dropCol_rows (t : Table) (c : String) :
    (t.dropCol c).rows = t.rows.map (fun r => Row.eraseKey r c) := rfl

theorem LevField.levCol_ne_ldName (f : LevField) : f.levCol ≠ ldName := by
  intro h
  have hlen := congrArg String.length h
  rw [LevField.levCol, String.length_append] at hlen
  have h1 : ("_levenshtein_distance").length = 21 := rfl
  have h2 : ldName.length = 11 := rfl
  omega

theorem LevField.levCol_ne_matched_to (f : LevField) :
    f.levCol ≠ "matched_to" := by
  intro h
  have hlen := congrArg String.length h
  rw [LevField.levCol, String.length_append] at hlen
  have h1 : ("_levenshtein_distance").length = 21 := rfl
  have h2 : ("matched_to").length = 10 := rfl
  omega

theorem LevField.levCol_inj_name {f g : LevField} (h : f.levCol = g.levCol) :
    f.field_name = g.field_name := by
  rw [LevField.levCol, LevField.levCol] at h
  have hd := congrArg String.data h
  rw [String.data_append, String.data_append] at hd
  exact String.ext (List.append_cancel_right hd)

theorem rowStr_set_ne (r : Row) {c d : String} (v : Value) (h : d ≠ c) :
    rowStr (Row.set r c v) d = rowStr r d := by
  rw [rowStr, rowStr, Row.get_set_ne r v h]

theorem rowStr_eraseKey_ne (r : Row) {c d : String} (h : d ≠ c) :
    rowStr (Row.eraseKey r c) d = rowStr r d := by
  rw [rowStr, rowStr, Row.get_eraseKey_ne r h]

theorem rowStrOkOne_set_ne (suf : String × String) (f : LevField) (r : Row)
    {c : String} (v : Value) (h1 : f.leftCol suf ≠ c) (h2 : f.rightCol suf ≠ c) :
    rowStrOkOne suf f (Row.set r c v) = rowStrOkOne suf f r := by
  rw [rowStrOkOne, rowStrOkOne, rowStr_set_ne r v h1, rowStr_set_ne r v h2]

theorem rowStrOkOne_eraseKey_ne (suf : String × String) (f : LevField)
    (r : Row) {c : String} (h1 : f.leftCol suf ≠ c) (h2 : f.rightCol suf ≠ c) :
    rowStrOkOne suf f (Row.eraseKey r c) = rowStrOkOne suf f r := by
  rw [rowStrOkOne, rowStrOkOne, rowStr_eraseKey_ne r h1, rowStr_eraseKey_ne r h2]

theorem lenOkRaw_set_ne (suf : String × String) (f : LevField) (r : Row)
    {c : String} (v : Value) (h1 : f.leftCol suf ≠ c) (h2 : f.rightCol suf ≠ c) :
    lenOkRaw suf f (Row.set r c v) = lenOkRaw suf f r := by
  rw [lenOkRaw, lenOkRaw, rowStr_set_ne r v h1, rowStr_set_ne r v h2]

theorem lenOkRaw_eraseKey_ne (suf : String × String) (f : LevField) (r : Row)
    {c : String} (h1 : f.leftCol suf ≠ c) (h2 : f.rightCol suf ≠ c) :
    lenOkRaw suf f (Row.eraseKey r c) = lenOkRaw suf f r := by
  rw [lenOkRaw, lenOkRaw, rowStr_eraseKey_ne r h1, rowStr_eraseKey_ne r h2]

theorem distVal_set_ne (suf : String × String) (f : LevField) (r : Row)
    {c : String} (v : Value) (h1 : f.leftCol suf ≠ c) (h2 : f.rightCol suf ≠ c) :
    distVal suf f (Row.set r c v) = distVal suf f r := by
  rw [distVal, distVal, rowStr_set_ne r v h1, rowStr_set_ne r v h2]

theorem distVal_eraseKey_ne (suf : String × String) (f : LevField) (r : Row)
    {c : String} (h1 : f.leftCol suf ≠ c) (h2 : f.rightCol suf ≠ c) :
    distVal suf f (Row.eraseKey r c) = distVal suf f r := by
  rw [distVal, distVal, rowStr_eraseKey_ne r h1, rowStr_eraseKey_ne r h2]

/-- The materialized pruning filter decides exactly the raw length test. -/
theorem intColLE_set_lenDiff (suf : String × String) (f : LevField) (r : Row) :
    intColLE ldName f.precision (Row.set r ldName (lenDiffVal suf f r)) =
      lenOkRaw suf f r := by
  rw [intColLE, Row.get_set_self]
  rw [lenDiffVal, lenOkRaw]
  cases h1 : rowStr r (f.leftCol suf) <;> cases h2 : rowStr r (f.rightCol suf) <;> rfl

/-- A row passing every distance threshold passes every length-pruning test:
the refinement direction of the pruning optimization. -/
theorem lenOkRaw_of_distOkRaw (suf : String × String) (f : LevField) (r : Row)
    (h : distOkRaw suf f r = true) : lenOkRaw suf f r = true := by
  rw [distOkRaw] at h
  rw [lenOkRaw]
  cases h1 : rowStr r (f.leftCol suf) with
  | none => rw [h1] at h; exact absurd h (by simp)
  | some a =>
    cases h2 : rowStr r (f.rightCol suf) with
    | none => rw [h1, h2] at h; exact absurd h (by simp)
    | some b =>
      rw [h1, h2] at h
      simp only [decide_eq_true_eq] at h ⊢
      have hb := length_diff_le_distance a b
      omega

theorem Table.dropCol_setColWith (t : Table) {c d : String} (g : Row → Value)
    (hcd : c ≠ d) (hg : ∀ r, g (Row.eraseKey r d) = g r) :
    (t.setColWith c g).dropCol d = (t.dropCol d).setColWith c g := by
  rw [Table.setColWith, Table.dropCol, Table.dropCol, Table.setColWith]
  congr 1
  · by_cases hc : c ∈ t.cols
    · rw [if_pos hc, if_pos (List.mem_filter.mpr ⟨hc, by simp [hcd]⟩)]
    · rw [if_neg hc, if_neg (fun hmem => hc (List.mem_filter.mp hmem).1),
        List.filter_append]
      simp [hcd]
  · simp only [List.map_map]
    apply List.map_congr_left
    intro r _
    show Row.eraseKey (Row.set r c (g r)) d =
      Row.set (Row.eraseKey r d) c (g (Row.eraseKey r d))
    rw [Row.eraseKey_set_ne r (g r) hcd, hg r]

theorem Table.dropCol_filterRows (t : Table) (d : String) (p : Row → Bool)
    (hp : ∀ r, p (Row.eraseKey r d) = p r) :
    Table.dropCol { t with rows := t.rows.filter p } d =
      { t.dropCol d with rows := (t.dropCol d).rows.filter p } := by
  rw [Table.dropCol, Table.dropCol]
  congr 1
  rw [List.filter_map]
  congr 1
  apply List.filter_congr
  intro r _
  exact (hp r).symm

theorem all_congr_mem {α : Type} {l : List α} {p q : α → Bool}
    (h : ∀ a ∈ l, p a = q a) : l.all p = l.all q := by
  induction l with
  | nil => rfl
  | cons a as ih =>
    rw [List.all_cons, List.all_cons, h a (List.mem_cons_self _ _),
      ih (fun a ha => h a (List.mem_cons_of_mem _ ha))]

theorem Table.dropCol_of_noLd (t : Table) (h : noLd t) : t.dropCol ldName = t := by
  rw [Table.dropCol]
  have hcols : t.cols.filter (fun d => decide (d ≠ ldName)) = t.cols :=
    List.filter_eq_self.mpr (fun c hc => by
      simp only [decide_eq_true_eq]
      exact fun hceq => h.1 (hceq ▸ hc))
  have hrows : t.rows.map (fun r => r.filter (fun p => decide (p.1 ≠ ldName))) =
      t.rows := by
    conv_rhs => rw [← List.map_id t.rows]
    apply List.map_congr_left
    intro r hr
    exact Row.eraseKey_of_get_none r ldName (h.2 r hr)
  rw [hcols, hrows]

/-- The length-pruning fold (claim C2, step 1): on string-valued data with
fresh scratch names it always succeeds, and after discarding the scratch
`length_diff` column its output is exactly the input filtered by the raw
per-field length tests. -/
theorem pruneFold_ok (suf : String × String) :
    ∀ (fs : List LevField) (C : Table),
      strOkAll suf fs C → ldFresh suf fs →
      ∃ P, fs.foldlM (pruneStep suf) C = Except.ok P ∧
        P.dropCol ldName =
          { cols := (C.dropCol ldName).cols
            rows := (C.dropCol ldName).rows.filter
              (fun r => fs.all (fun f => lenOkRaw suf f r)) } := by
  intro fs
  induction fs with
  | nil =>
    intro C _ _
    refine ⟨C, rfl, ?_⟩
    rw [Table.dropCol]
    congr 1
    rw [List.filter_congr (q := fun _ => true) (fun r _ => by simp)]
    simp
  | cons f fs ih =>
    intro C hstr hfresh
    have hcheck : C.rows.all (rowStrOkOne suf f) = true :=
      List.all_eq_true.mpr (fun r hr => hstr r hr f (List.mem_cons_self _ _))
    have hstep : pruneStep suf C f = Except.ok
        { cols := if ldName ∈ C.cols then C.cols else C.cols ++ [ldName]
          rows := (C.rows.map (fun r => Row.set r ldName (lenDiffVal suf f r))).filter
            (intColLE ldName f.precision) } := by
      rw [pruneStep, if_pos hcheck]
      rfl
    set P1 : Table :=
      { cols := if ldName ∈ C.cols then C.cols else C.cols ++ [ldName]
        rows := (C.rows.map (fun r => Row.set r ldName (lenDiffVal suf f r))).filter
          (intColLE ldName f.precision) } with hP1
    have hrows1 : P1.rows =
        (C.rows.filter (fun r => lenOkRaw suf f r)).map
          (fun r => Row.set r ldName (lenDiffVal suf f r)) := by
      show (C.rows.map (fun r => Row.set r ldName (lenDiffVal suf f r))).filter
          (intColLE ldName f.precision) = _
      rw [List.filter_map]
      congr 1
      apply List.filter_congr
      intro r _
      exact intColLE_set_lenDiff suf f r
    have hstr1 : strOkAll suf fs P1 := by
      intro r hr g hg
      rw [hrows1] at hr
      obtain ⟨r0, hr0, rfl⟩ := List.mem_map.mp hr
      have hr0C : r0 ∈ C.rows := (List.mem_filter.mp hr0).1
      have hfr := hfresh g (List.mem_cons_of_mem _ hg)
      rw [rowStrOkOne_set_ne suf g r0 _ hfr.1 hfr.2]
      exact hstr r0 hr0C g (List.mem_cons_of_mem _ hg)
    obtain ⟨P, hfold, hdrop⟩ := ih P1 hstr1
      (fun g hg => hfresh g (List.mem_cons_of_mem _ hg))
    refine ⟨P, ?_, ?_⟩
    · rw [List.foldlM_cons, hstep]
      simpa using hfold
    · rw [hdrop]
      have hcols1 : (P1.dropCol ldName).cols = (C.dropCol ldName).cols := by
        rw [hP1, Table.dropCol, Table.dropCol]
        by_cases hld : ldName ∈ C.cols
        · rw [if_pos hld]
        · rw [if_neg hld, List.filter_append]
          simp
      have hrows2 : (P1.dropCol ldName).rows =
          (C.rows.filter (fun r => lenOkRaw suf f r)).map
            (fun r => Row.eraseKey r ldName) := by
        rw [Table.dropCol_rows, hrows1, List.map_map]
        apply List.map_congr_left
        intro r _
        exact Row.eraseKey_set_self r ldName (lenDiffVal suf f r)
      rw [hcols1, hrows2]
      congr 1
      -- both sides are the erased rows filtered by scratch-free predicates
      rw [List.filter_map, Table.dropCol_rows, List.filter_map]
      congr 1
      calc List.filter
            ((fun r => fs.all (fun g => lenOkRaw suf g r)) ∘
              (fun r => Row.eraseKey r ldName))
            (C.rows.filter (fun r => lenOkRaw suf f r))
          = List.filter (fun r => fs.all (fun g => lenOkRaw suf g r))
              (C.rows.filter (fun r => lenOkRaw suf f r)) := by
            apply List.filter_congr
            intro r _
            show fs.all (fun g => lenOkRaw suf g (Row.eraseKey r ldName)) = _
            apply all_congr_mem
            intro g hg
            have hfr := hfresh g (List.mem_cons_of_mem _ hg)
            exact lenOkRaw_eraseKey_ne suf g r hfr.1 hfr.2
        _ = List.filter
              (fun r => fs.all (fun g => lenOkRaw suf g r) && lenOkRaw suf f r)
              C.rows := List.filter_filter _ _
        _ = List.filter
              ((fun r => (f :: fs).all (fun g => lenOkRaw suf g r)) ∘
                (fun r => Row.eraseKey r ldName)) C.rows := by
            apply List.filter_congr
            intro r _
            show (fs.all (fun g => lenOkRaw suf g r) && lenOkRaw suf f r)
              = (f :: fs).all (fun g => lenOkRaw suf g (Row.eraseKey r ldName))
            rw [show (f :: fs).all (fun g => lenOkRaw suf g (Row.eraseKey r ldName))
                = (f :: fs).all (fun g => lenOkRaw suf g r) from
              all_congr_mem (fun g hg => by
                have hfr := hfresh g hg
                exact lenOkRaw_eraseKey_ne suf g r hfr.1 hfr.2)]
            rw [List.all_cons]
            exact Bool.and_comm _ _

theorem distFold_ok (suf : String × String) :
    ∀ (fs : List LevField) (t : Table),
      (∀ r ∈ t.rows, ∀ f ∈ fs, rowStrOkOne suf f r = true) →
      (∀ f ∈ fs, ∀ g ∈ fs,
        f.leftCol suf ≠ g.levCol ∧ f.rightCol suf ≠ g.levCol) →
      fs.foldlM (distStep suf) t =
        Except.ok ⟨distColsFold fs t.cols, t.rows.map (distRowFold suf fs)⟩ := by
  intro fs
  induction fs with
  | nil =>
    intro t _ _
    show Except.ok t = _
    congr 1
    cases t with
    | mk cols rows =>
      congr 1
      conv_lhs => rw [← List.map_id rows]
      apply List.map_congr_left
      intro r _
      rfl
  | cons f fs ih =>
    intro t hstr hfresh
    have hcheck : t.rows.all (rowStrOkOne suf f) = true :=
      List.all_eq_true.mpr (fun r hr => hstr r hr f (List.mem_cons_self _ _))
    have hstep : distStep suf t f =
        Except.ok (t.setColWith (f.levCol) (distVal suf f)) := by
      rw [distStep, if_pos hcheck]
    rw [List.foldlM_cons, hstep]
    have hstr1 : ∀ r ∈ (t.setColWith (f.levCol) (distVal suf f)).rows,
        ∀ g ∈ fs, rowStrOkOne suf g r = true := by
      intro r hr g hg
      obtain ⟨r0, hr0, rfl⟩ := List.mem_map.mp hr
      have hfr := hfresh g (List.mem_cons_of_mem _ hg) f (List.mem_cons_self _ _)
      rw [rowStrOkOne_set_ne suf g r0 _ hfr.1 hfr.2]
      exact hstr r0 hr0 g (List.mem_cons_of_mem _ hg)
    have hih := ih (t.setColWith (f.levCol) (distVal suf f)) hstr1
      (fun f' hf' g hg => hfresh f' (List.mem_cons_of_mem _ hf')
        g (List.mem_cons_of_mem _ hg))
    show fs.foldlM (distStep suf) (t.setColWith (f.levCol) (distVal suf f)) = _
    rw [hih]
    have hrows : ((t.setColWith (f.levCol) (distVal suf f)).rows.map
        (distRowFold suf fs)) = t.rows.map (distRowFold suf (f :: fs)) := by
      show (t.rows.map (fun r => Row.set r (f.levCol) (distVal suf f r))).map
        (distRowFold suf fs) = _
      rw [List.map_map]
      rfl
    rw [hrows]
    rfl

theorem distFold_dropCol (suf : String × String) :
    ∀ (fs : List LevField) (t : Table), ldFresh suf fs →
      fs.foldlM (distStep suf) (t.dropCol ldName) =
        Except.map (fun u => u.dropCol ldName) (fs.foldlM (distStep suf) t) := by
  intro fs
  induction fs with
  | nil => intro t _; rfl
  | cons f fs ih =>
    intro t hfresh
    have hf := hfresh f (List.mem_cons_self _ _)
    have hchecks : (t.dropCol ldName).rows.all (rowStrOkOne suf f) =
        t.rows.all (rowStrOkOne suf f) := by
      rw [Table.dropCol_rows, List.all_map]
      apply all_congr_mem
      intro r _
      show rowStrOkOne suf f (Row.eraseKey r ldName) = _
      exact rowStrOkOne_eraseKey_ne suf f r hf.1 hf.2
    rw [List.foldlM_cons, List.foldlM_cons]
    unfold distStep
    rw [hchecks]
    by_cases hcheck : t.rows.all (rowStrOkOne suf f) = true
    · rw [if_pos hcheck, if_pos hcheck]
      have hcomm : (t.dropCol ldName).setColWith (f.levCol) (distVal suf f) =
          (t.setColWith (f.levCol) (distVal suf f)).dropCol ldName := by
        rw [Table.dropCol_setColWith t (distVal suf f)
          (LevField.levCol_ne_ldName f)
          (fun r => distVal_eraseKey_ne suf f r hf.1 hf.2)]
      show fs.foldlM (distStep suf)
          ((t.dropCol ldName).setColWith (f.levCol) (distVal suf f)) = _
      rw [hcomm]
      exact ih (t.setColWith (f.levCol) (distVal suf f))
        (fun g hg => hfresh g (List.mem_cons_of_mem _ hg))
    · rw [if_neg hcheck, if_neg hcheck]
      rfl

theorem distRowFold_get_notin (suf : String × String) :
    ∀ (fs : List LevField) (r : Row) (c : String),
      c ∉ fs.map LevField.levCol →
      Row.get (distRowFold suf fs r) c = Row.get r c := by
  intro fs
  induction fs with
  | nil => intro r c _; rfl
  | cons f fs ih =>
    intro r c hc
    show Row.get (distRowFold suf fs (Row.set r (f.levCol) (distVal suf f r))) c = _
    rw [ih _ c (fun hmem => hc (List.mem_cons_of_mem _ hmem))]
    exact Row.get_set_ne r _ (fun hceq => hc (hceq ▸ List.mem_cons_self _ _))

theorem distVal_congr_name (suf : String × String) {f g : LevField}
    (h : f.field_name = g.field_name) (r : Row) :
    distVal suf f r = distVal suf g r := by
  rw [distVal, distVal, LevField.leftCol, LevField.leftCol, LevField.rightCol,
    LevField.rightCol, h]

theorem distRowFold_get_mem (suf : String × String) :
    ∀ (fs : List LevField) (r : Row) (f : LevField), f ∈ fs →
      (∀ f' ∈ fs, ∀ g ∈ fs,
        f'.leftCol suf ≠ g.levCol ∧ f'.rightCol suf ≠ g.levCol) →
      Row.get (distRowFold suf fs r) (f.levCol) = some (distVal suf f r) := by
  intro fs
  induction fs with
  | nil => intro r f hf; exact absurd hf (List.not_mem_nil f)
  | cons g fs ih =>
    intro r f hf hfresh
    have hstep : distRowFold suf (g :: fs) r =
        distRowFold suf fs (Row.set r (g.levCol) (distVal suf g r)) := rfl
    rw [hstep]
    rcases List.mem_cons.mp hf with rfl | hf'
    · -- the head field: subsequent writes either miss its column or rewrite
      -- the same value
      by_cases hmem : f.levCol ∈ fs.map LevField.levCol
      · obtain ⟨f', hf', hlev⟩ := List.mem_map.mp hmem
        have hfr := hfresh f' (List.mem_cons_of_mem _ hf') f
          (List.mem_cons_self _ _)
        rw [← hlev]
        rw [ih _ f' hf' (fun a ha b hb => hfresh a (List.mem_cons_of_mem _ ha)
          b (List.mem_cons_of_mem _ hb))]
        rw [distVal_set_ne suf f' r _ (hlev.symm ▸ hfr.1) (hlev.symm ▸ hfr.2)]
        rw [distVal_congr_name suf (LevField.levCol_inj_name hlev) r]
      · rw [distRowFold_get_notin suf fs _ _ hmem, Row.get_set_self]
    · have hfr := hfresh f (List.mem_cons_of_mem _ hf') g (List.mem_cons_self _ _)
      rw [ih _ f hf' (fun a ha b hb => hfresh a (List.mem_cons_of_mem _ ha)
        b (List.mem_cons_of_mem _ hb))]
      rw [distVal_set_ne suf f r _ hfr.1 hfr.2]

theorem intColLE_eq_distOkRaw (suf : String × String) (f : LevField)
    (r r' : Row) (h : Row.get r' (f.levCol) = some (distVal suf f r)) :
    intColLE (f.levCol) f.precision r' = distOkRaw suf f r := by
  rw [intColLE, h, distVal, distOkRaw]
  cases h1 : rowStr r (f.leftCol suf) <;>
    cases h2 : rowStr r (f.rightCol suf) <;> rfl

theorem allDistOk_eraseKey_ld (fields : List LevField) (r : Row) :
    allDistOk fields (Row.eraseKey r ldName) = allDistOk fields r := by
  apply all_congr_mem
  intro f _
  rw [intColLE, intColLE, Row.get_eraseKey_ne r (LevField.levCol_ne_ldName f)]

theorem allDistOk_set_mt_distRowFold (suf : String × String)
    (fields : List LevField) (hfresh2 : levFresh suf fields) (r : Row)
    (w : Value) :
    allDistOk fields (Row.set (distRowFold suf fields r) "matched_to" w) =
      fields.all (fun f => distOkRaw suf f r) := by
  apply all_congr_mem
  intro f hf
  have hget : Row.get (Row.set (distRowFold suf fields r) "matched_to" w)
      (f.levCol) = some (distVal suf f r) := by
    rw [Row.get_set_ne _ _ (LevField.levCol_ne_matched_to f)]
    exact distRowFold_get_mem suf fields r f hf hfresh2
  exact intColLE_eq_distOkRaw suf f r _ hget

theorem mem_distColsFold (c : String) :
    ∀ (fs : List LevField) (cs : List String),
      c ∈ distColsFold fs cs ↔ c ∈ cs ∨ c ∈ fs.map LevField.levCol := by
  intro fs
  induction fs with
  | nil => intro cs; simp [distColsFold]
  | cons f fs ih =>
    intro cs
    show c ∈ distColsFold fs (if f.levCol ∈ cs then cs else cs ++ [f.levCol]) ↔ _
    rw [ih]
    by_cases hmem : f.levCol ∈ cs
    · rw [if_pos hmem]
      constructor
      · rintro (h | h)
        · exact Or.inl h
        · exact Or.inr (List.mem_cons_of_mem _ h)
      · rintro (h | h)
        · exact Or.inl h
        · rcases List.mem_cons.mp h with rfl | h
          · exact Or.inl hmem
          · exact Or.inr h
    · rw [if_neg hmem]
      constructor
      · rintro (h | h)
        · rcases List.mem_append.mp h with h | h
          · exact Or.inl h
          · rcases List.mem_singleton.mp h with rfl
            exact Or.inr (List.mem_cons_self _ _)
        · exact Or.inr (List.mem_cons_of_mem _ h)
      · rintro (h | h)
        · exact Or.inl (List.mem_append.mpr (Or.inl h))
        · rcases List.mem_cons.mp h with rfl | h
          · exact Or.inl (List.mem_append.mpr (Or.inr (List.mem_singleton.mpr rfl)))
          · exact Or.inr h

/-- C2: in the edit-distance matcher, pruning the cross-joined rows by
per-field string-length difference before filtering by true edit distance
produces exactly the result of filtering every cross-joined row by edit
distance alone (`Matcher.levenshteinDirect`), up to the scratch `length_diff`
column the pruning loop leaves behind: the pruning step never removes a row
that would satisfy all distance thresholds.  Hypotheses: every configured
cell of the tagged cross-join holds a string (otherwise the source raises),
and no data column is named like the scratch columns (`length_diff`, the
`*_levenshtein_distance` columns) nor is the left key the scratch name. -/
theorem levenshtein_prune_equiv (m : Matcher) (fields : List LevField)
    (tid : Value)
    (hstr : strOkAll m.suffixes fields (m.crossedMT tid))
    (hld : noLd (m.crossedMT tid))
    (hfresh : ldFresh m.suffixes fields)
    (hfresh2 : levFresh m.suffixes fields)
    (hlid : m.left_id_field ≠ ldName) :
    Except.map (fun t => t.dropCol ldName) (m.levenshtein fields tid) =
      m.levenshteinDirect fields tid := by
  unfold Matcher.levenshtein Matcher.levenshteinDirect
  by_cases hassert : ((fields.all (fun f => decide (f.field_name ∈ m.left_data.cols)))
      && fields.all (fun f => decide (f.field_name ∈ m.right_data.cols))) = true
  swap
  · rw [if_neg hassert, if_neg hassert]
    rfl
  rw [if_pos hassert, if_pos hassert]
  obtain ⟨P, hprune, hdropP⟩ := pruneFold_ok m.suffixes fields
    (m.crossedMT tid) hstr hfresh
  have hCdrop : (m.crossedMT tid).dropCol ldName = m.crossedMT tid :=
    Table.dropCol_of_noLd _ hld
  rw [hCdrop] at hdropP
  set Cf : Table :=
    { cols := (m.crossedMT tid).cols
      rows := (m.crossedMT tid).rows.filter
        (fun r => fields.all (fun f => lenOkRaw m.suffixes f r)) } with hCf
  have hstrP : ∀ r ∈ P.rows, ∀ f ∈ fields, rowStrOkOne m.suffixes f r = true := by
    intro r hr f hf
    have hfr := hfresh f hf
    rw [← rowStrOkOne_eraseKey_ne m.suffixes f r hfr.1 hfr.2]
    have hmem : Row.eraseKey r ldName ∈ (P.dropCol ldName).rows := by
      rw [Table.dropCol_rows]
      exact List.mem_map_of_mem _ hr
    rw [hdropP] at hmem
    have hmem2 : Row.eraseKey r ldName ∈ (m.crossedMT tid).rows :=
      (List.mem_filter.mp hmem).1
    exact hstr _ hmem2 f hf
  have hstrCf : ∀ r ∈ Cf.rows, ∀ f ∈ fields, rowStrOkOne m.suffixes f r = true :=
    fun r hr f hf => hstr r (List.mem_filter.mp hr).1 f hf
  have hfresh2' : ∀ f ∈ fields, ∀ g ∈ fields,
      f.leftCol m.suffixes ≠ g.levCol ∧ f.rightCol m.suffixes ≠ g.levCol :=
    hfresh2
  have hdistP := distFold_ok m.suffixes fields P hstrP hfresh2'
  have hdistC := distFold_ok m.suffixes fields (m.crossedMT tid) hstr hfresh2'
  have hdistCf := distFold_ok m.suffixes fields Cf hstrCf hfresh2'
  rw [hprune, hdistC]
  dsimp only
  rw [hdistP]
  -- identify the dropped distance table with the distance table of the
  -- filtered cross-join
  have hdropD : (⟨distColsFold fields P.cols,
      P.rows.map (distRowFold m.suffixes fields)⟩ : Table).dropCol ldName =
      ⟨distColsFold fields Cf.cols, Cf.rows.map (distRowFold m.suffixes fields)⟩ := by
    have h1 := distFold_dropCol m.suffixes fields P hfresh
    rw [hdistP, hdropP, hdistCf] at h1
    have h2 : Except.ok ((⟨distColsFold fields P.cols,
        P.rows.map (distRowFold m.suffixes fields)⟩ : Table).dropCol ldName) =
        Except.ok (⟨distColsFold fields Cf.cols,
          Cf.rows.map (distRowFold m.suffixes fields)⟩ : Table) := h1.symm
    exact Except.ok.inj h2
  dsimp only
  by_cases hemp : fields.isEmpty = true
  · rw [if_pos hemp, if_pos hemp]
    rfl
  rw [if_neg hemp, if_neg hemp]
  have hcolsmem : (m.left_id_field ∈ distColsFold fields P.cols) ↔
      (m.left_id_field ∈ distColsFold fields (m.crossedMT tid).cols) := by
    rw [mem_distColsFold, mem_distColsFold]
    have hPc : m.left_id_field ∈ P.cols ↔
        m.left_id_field ∈ (m.crossedMT tid).cols := by
      have hPcols : P.cols.filter (fun d => decide (d ≠ ldName)) =
          (m.crossedMT tid).cols := congrArg Table.cols hdropP
      rw [← hPcols]
      constructor
      · intro h
        exact List.mem_filter.mpr ⟨h, by simp [hlid]⟩
      · intro h
        exact (List.mem_filter.mp h).1
    rw [hPc]
  by_cases hcond : m.left_id_field ∈ distColsFold fields (m.crossedMT tid).cols
  swap
  · rw [if_neg hcond, if_neg (fun h => hcond (hcolsmem.mp h))]
    rfl
  rw [if_pos hcond, if_pos (hcolsmem.mpr hcond)]
  -- commute the column drop through the final matched_to/threshold stage
  refine congrArg Except.ok ?_
  show Table.dropCol _ ldName = _
  rw [Table.dropCol_filterRows _ ldName (allDistOk fields)
    (fun r => allDistOk_eraseKey_ld fields r)]
  rw [Table.dropCol_setColWith _ _ (by decide)
    (fun r => by rw [Row.getD, Row.getD, Row.get_eraseKey_ne r hlid])]
  rw [hdropD]
  -- now both sides are the unpruned distance table, filtered
  refine congrArg (Table.mk _) ?_
  have hsetrows : ∀ (X : Table),
      (X.setColWith "matched_to" (fun r => Row.getD r m.left_id_field)).rows =
        X.rows.map (fun r => Row.set r "matched_to" (Row.getD r m.left_id_field)) :=
    fun X => rfl
  rw [hsetrows, hsetrows]
  show ((Cf.rows.map (distRowFold m.suffixes fields)).map _).filter _ =
    (((m.crossedMT tid).rows.map (distRowFold m.suffixes fields)).map _).filter _
  have hCfrows : Cf.rows = (m.crossedMT tid).rows.filter
      (fun r => fields.all (fun f => lenOkRaw m.suffixes f r)) := rfl
  rw [List.map_map, List.map_map, List.filter_map, List.filter_map, hCfrows]
  congr 1
  rw [List.filter_filter]
  apply List.filter_congr
  intro r _
  simp only [Function.comp_apply]
  rw [allDistOk_set_mt_distRowFold m.suffixes fields hfresh2 r _]
  by_cases hall : fields.all (fun f => distOkRaw m.suffixes f r) = true
  · rw [hall]
    have hlen : fields.all (fun f => lenOkRaw m.suffixes f r) = true := by
      apply List.all_eq_true.mpr
      intro f hf
      exact lenOkRaw_of_distOkRaw m.suffixes f r
        (List.all_eq_true.mp hall f hf)
    rw [hlen]
    rfl
  · rw [Bool.eq_false_iff.mpr hall]
    rfl

theorem distRowFold_eraseKey (suf : String × String) :
    ∀ (fs : List LevField) (r : Row), ldFresh suf fs →
      Row.eraseKey (distRowFold suf fs r) ldName =
        distRowFold suf fs (Row.eraseKey r ldName) := by
  intro fs
  induction fs with
  | nil => intro r _; rfl
  | cons f fs ih =>
    intro r hfresh
    have hf := hfresh f (List.mem_cons_self _ _)
    show Row.eraseKey (distRowFold suf fs
      (Row.set r (f.levCol) (distVal suf f r))) ldName = _
    rw [ih _ (fun g hg => hfresh g (List.mem_cons_of_mem _ hg))]
    rw [Row.eraseKey_set_ne r _ (LevField.levCol_ne_ldName f)]
    rw [show distVal suf f r = distVal suf f (Row.eraseKey r ldName) from
      (distVal_eraseKey_ne suf f r hf.1 hf.2).symm]
    rfl

/-- Witness for the pruning-refinement theorem at the repository's own test
data and criteria. -/
theorem levenshtein_prune_equiv_witness :
    Except.map (fun t => t.dropCol ldName)
      (mBob.levenshtein [⟨"first", 0⟩, ⟨"last", 1⟩] (Value.int 2)) =
      mBob.levenshteinDirect [⟨"first", 0⟩, ⟨"last", 1⟩] (Value.int 2) :=
  levenshtein_prune_equiv mBob [⟨"first", 0⟩, ⟨"last", 1⟩] (Value.int 2)
    (by decide) (by decide) (by decide) (by decide) (by decide)

/-- C5: the edit-distance matcher keeps a cross-joined row if and only if
every configured field's edit distance is within its configured
`max_distance` (conjunction across fields): modulo the scratch `length_diff`
column, the kept rows are exactly the cross-joined rows passing
`fields.all distOkRaw`, decorated with the distance columns and
`matched_to`.  In particular, on the repository's test data with left record
(3, Bob, Mitten) and right record (102, Bob, Kitten): with max distances
(0, 1) for (first, last) the pair is the single output row, and with
(0, 0) the output is empty. -/
theorem levenshtein_kept_iff :
    (∀ (m : Matcher) (fields : List LevField) (tid : Value),
      strOkAll m.suffixes fields (m.crossedMT tid) → noLd (m.crossedMT tid) →
      ldFresh m.suffixes fields → levFresh m.suffixes fields →
      m.left_id_field ≠ ldName →
      ∀ out, m.levenshtein fields tid = Except.ok out →
      out.rows.map (fun r => Row.eraseKey r ldName) =
        ((m.crossedMT tid).rows.filter
          (fun r => fields.all (fun f => distOkRaw m.suffixes f r))).map
          (fun r => Row.set (distRowFold m.suffixes fields r) "matched_to"
            (Row.getD (distRowFold m.suffixes fields r) m.left_id_field))) ∧
    (mBob.levenshtein [⟨"first", 0⟩, ⟨"last", 1⟩] (Value.int 2)).map
        (fun t => t.rows.map (fun r => (Row.get r "id1", Row.get r "id2"))) =
      Except.ok [(some (Value.int 3), some (Value.int 102))] ∧
    (mBob.levenshtein [⟨"first", 0⟩, ⟨"last", 0⟩] (Value.int 2)).map
        (fun t => t.rows) = Except.ok [] := by
  refine ⟨?_, rfl, rfl⟩
  intro m fields tid hstr hld hfresh hfresh2 hlid out hok
  unfold Matcher.levenshtein at hok
  by_cases hassert : ((fields.all (fun f => decide (f.field_name ∈ m.left_data.cols)))
      && fields.all (fun f => decide (f.field_name ∈ m.right_data.cols))) = true
  swap
  · rw [if_neg hassert] at hok
    exact absurd hok (by simp)
  rw [if_pos hassert] at hok
  obtain ⟨P, hprune, hdropP⟩ := pruneFold_ok m.suffixes fields
    (m.crossedMT tid) hstr hfresh
  have hCdrop : (m.crossedMT tid).dropCol ldName = m.crossedMT tid :=
    Table.dropCol_of_noLd _ hld
  rw [hCdrop] at hdropP
  have hstrP : ∀ r ∈ P.rows, ∀ f ∈ fields, rowStrOkOne m.suffixes f r = true := by
    intro r hr f hf
    have hfr := hfresh f hf
    rw [← rowStrOkOne_eraseKey_ne m.suffixes f r hfr.1 hfr.2]
    have hmem : Row.eraseKey r ldName ∈ (P.dropCol ldName).rows := by
      rw [Table.dropCol_rows]
      exact List.mem_map_of_mem _ hr
    rw [hdropP] at hmem
    exact hstr _ (List.mem_filter.mp hmem).1 f hf
  have hdistP := distFold_ok m.suffixes fields P hstrP hfresh2
  rw [hprune] at hok
  dsimp only at hok
  rw [hdistP] at hok
  dsimp only at hok
  by_cases hemp : fields.isEmpty = true
  · rw [if_pos hemp] at hok
    exact absurd hok (by simp)
  rw [if_neg hemp] at hok
  by_cases hcond : m.left_id_field ∈ distColsFold fields P.cols
  swap
  · rw [if_neg hcond] at hok
    exact absurd hok (by simp)
  rw [if_pos hcond] at hok
  have hout := (Except.ok.inj hok).symm
  rw [hout]
  -- out.rows is the decorated distance table of P, filtered by the
  -- materialized thresholds
  show ((((P.rows.map (distRowFold m.suffixes fields)).map
      (fun r => Row.set r "matched_to" (Row.getD r m.left_id_field))).filter
      (allDistOk fields)).map (fun r => Row.eraseKey r ldName)) = _
  rw [List.map_map, List.filter_map]
  have hq : ∀ r ∈ P.rows,
      ((allDistOk fields) ∘ ((fun r => Row.set r "matched_to"
        (Row.getD r m.left_id_field)) ∘ distRowFold m.suffixes fields)) r =
      fields.all (fun f => distOkRaw m.suffixes f r) := fun r _ =>
    allDistOk_set_mt_distRowFold m.suffixes fields hfresh2 r _
  rw [List.filter_congr hq, List.map_map]
  -- commute the erase inside the decoration
  have hcomm : ∀ r,
      ((fun r => Row.eraseKey r ldName) ∘ ((fun r => Row.set r "matched_to"
        (Row.getD r m.left_id_field)) ∘ distRowFold m.suffixes fields)) r =
      ((fun r => Row.set (distRowFold m.suffixes fields r) "matched_to"
          (Row.getD (distRowFold m.suffixes fields r) m.left_id_field)) ∘
        (fun r => Row.eraseKey r ldName)) r := by
    intro r
    simp only [Function.comp_apply]
    rw [Row.eraseKey_set_ne _ _ (show "matched_to" ≠ ldName by decide)]
    rw [distRowFold_eraseKey m.suffixes fields r hfresh]
    have hval : Row.getD (distRowFold m.suffixes fields (Row.eraseKey r ldName))
        m.left_id_field =
        Row.getD (distRowFold m.suffixes fields r) m.left_id_field := by
      rw [← distRowFold_eraseKey m.suffixes fields r hfresh]
      rw [Row.getD, Row.getD, Row.get_eraseKey_ne _ hlid]
    rw [hval]
  rw [List.map_congr_left (fun r _ => hcomm r)]
  rw [← List.map_map]
  -- push the erase through the filter back onto the rows of P
  have hqerase : ∀ r ∈ P.rows,
      (fields.all (fun f => distOkRaw m.suffixes f r)) =
      ((fun r => fields.all (fun f => distOkRaw m.suffixes f r)) ∘
        (fun r => Row.eraseKey r ldName)) r := by
    intro r _
    apply (all_congr_mem ?_).symm
    intro f hf
    have hfr := hfresh f hf
    rw [distOkRaw, distOkRaw, rowStr_eraseKey_ne r hfr.1, rowStr_eraseKey_ne r hfr.2]
  rw [List.filter_congr hqerase, ← List.filter_map]
  have hProws : P.rows.map (fun r => Row.eraseKey r ldName) =
      (m.crossedMT tid).rows.filter
        (fun r => fields.all (fun f => lenOkRaw m.suffixes f r)) := by
    rw [← Table.dropCol_rows, hdropP]
  rw [hProws, List.filter_filter]
  congr 1
  apply List.filter_congr
  intro r _
  by_cases hall : fields.all (fun f => distOkRaw m.suffixes f r) = true
  · rw [hall]
    have hlen : fields.all (fun f => lenOkRaw m.suffixes f r) = true := by
      apply List.all_eq_true.mpr
      intro f hf
      exact lenOkRaw_of_distOkRaw m.suffixes f r (List.all_eq_true.mp hall f hf)
    rw [hlen]
    rfl
  · rw [Bool.eq_false_iff.mpr hall]
    rfl

/-- Witness for the kept-iff theorem: its general part applied at the
repository's test data, plus the concrete Bob/Mitten vs Bob/Kitten cases. -/
theorem levenshtein_kept_iff_witness :
    ∃ out, mBob.levenshtein [⟨"first", 0⟩, ⟨"last", 1⟩] (Value.int 2) =
        Except.ok out ∧
      out.rows.map (fun r => Row.eraseKey r ldName) =
        ((mBob.crossedMT (Value.int 2)).rows.filter
          (fun r => [(⟨"first", 0⟩ : LevField), ⟨"last", 1⟩].all
            (fun f => distOkRaw mBob.suffixes f r))).map
          (fun r => Row.set
            (distRowFold mBob.suffixes [⟨"first", 0⟩, ⟨"last", 1⟩] r) "matched_to"
            (Row.getD (distRowFold mBob.suffixes [⟨"first", 0⟩, ⟨"last", 1⟩] r)
              mBob.left_id_field)) := by
  cases hok : mBob.levenshtein [⟨"first", 0⟩, ⟨"last", 1⟩] (Value.int 2) with
  | error e =>
    have h2 : (Except.error e : Except String Table).map
        (fun t => t.rows.map (fun r => (Row.get r "id1", Row.get r "id2"))) =
        Except.ok [(some (Value.int 3), some (Value.int 102))] := by
      rw [← hok]
      exact levenshtein_kept_iff.2.1
    exact absurd h2 (by simp [Except.map])
  | ok out =>
    exact ⟨out, rfl, levenshtein_kept_iff.1 mBob [⟨"first", 0⟩, ⟨"last", 1⟩]
      (Value.int 2) (by decide) (by decide) (by decide) (by decide) (by decide)
      out hok⟩

theorem valueLE_refl (a : Value) : valueLE a a = true := by
  cases a <;> simp [valueLE]

theorem valueLE_total (a b : Value) :
    valueLE a b = true ∨ valueLE b a = true := by
  cases a with
  | null => cases b <;> simp [valueLE]
  | int m =>
    cases b with
    | null => simp [valueLE]
    | int n =>
      simp only [valueLE, decide_eq_true_eq]
      omega
    | str s => simp [valueLE]
  | str s =>
    cases b with
    | null => simp [valueLE]
    | int n => simp [valueLE]
    | str t =>
      simp only [valueLE, decide_eq_true_eq]
      exact le_total s t

theorem valueLE_trans {a b c : Value} (h1 : valueLE a b = true)
    (h2 : valueLE b c = true) : valueLE a c = true := by
  cases a with
  | null => cases b <;> cases c <;> simp_all [valueLE]
  | int m =>
    cases b with
    | null => cases c <;> simp_all [valueLE]
    | int n =>
      cases c with
      | null => simp [valueLE]
      | int k =>
        simp only [valueLE, decide_eq_true_eq] at h1 h2 ⊢
        omega
      | str s => simp [valueLE]
    | str s =>
      cases c with
      | null => simp [valueLE]
      | int k => simp [valueLE] at h2
      | str t => simp [valueLE]
  | str s =>
    cases b with
    | null => cases c <;> simp_all [valueLE]
    | int n => simp [valueLE] at h1
    | str t =>
      cases c with
      | null => simp [valueLE]
      | int k => simp [valueLE] at h2
      | str u =>
        simp only [valueLE, decide_eq_true_eq] at h1 h2 ⊢
        exact le_trans h1 h2

theorem mem_insertRow (r x : Row) :
    ∀ l, x ∈ insertRow r l ↔ x = r ∨ x ∈ l := by
  intro l
  induction l with
  | nil => simp [insertRow]
  | cons a as ih =>
    rw [insertRow]
    split
    · simp
    · rw [List.mem_cons, List.mem_cons, ih]
      tauto

theorem mem_sortRows (x : Row) : ∀ l, x ∈ sortRows l ↔ x ∈ l := by
  intro l
  induction l with
  | nil => simp [sortRows]
  | cons a as ih =>
    rw [sortRows, mem_insertRow, ih, List.mem_cons]

theorem pairwise_insertRow (r : Row) (l : List Row)
    (h : l.Pairwise (fun a b => valueLE (mtKey a) (mtKey b) = true)) :
    (insertRow r l).Pairwise (fun a b => valueLE (mtKey a) (mtKey b) = true) := by
  induction l with
  | nil => simp [insertRow]
  | cons a as ih =>
    rw [insertRow]
    rcases List.pairwise_cons.mp h with ⟨ha, has⟩
    split
    · rename_i hle
      refine List.pairwise_cons.mpr ⟨?_, h⟩
      intro b hb
      rcases List.mem_cons.mp hb with rfl | hb
      · exact hle
      · exact valueLE_trans hle (ha b hb)
    · rename_i hle
      have hra : valueLE (mtKey a) (mtKey r) = true := by
        rcases valueLE_total (mtKey r) (mtKey a) with h1 | h1
        · exact absurd h1 hle
        · exact h1
      refine List.pairwise_cons.mpr ⟨?_, ih has⟩
      intro b hb
      rcases (mem_insertRow r b as).mp hb with rfl | hb
      · exact hra
      · exact ha b hb

theorem pairwise_sortRows (l : List Row) :
    (sortRows l).Pairwise (fun a b => valueLE (mtKey a) (mtKey b) = true) := by
  induction l with
  | nil => simp [sortRows]
  | cons a as ih => exact pairwise_insertRow a (sortRows as) ih

theorem find?_insertRow_of_neg {p : Row → Bool} {r : Row} (hp : ¬ p r = true) :
    ∀ l, (insertRow r l).find? p = l.find? p := by
  intro l
  induction l with
  | nil => simp [insertRow, List.find?, hp]
  | cons a as ih =>
    rw [insertRow]
    split
    · rw [List.find?_cons_of_neg _ hp]
    · by_cases ha : p a = true
      · rw [List.find?_cons_of_pos _ ha, List.find?_cons_of_pos _ ha]
      · rw [List.find?_cons_of_neg _ ha, List.find?_cons_of_neg _ ha, ih]

theorem find?_insertRow_sorted {p : Row → Bool} {r : Row} (hp : p r = true) :
    ∀ l, l.Pairwise (fun a b => valueLE (mtKey a) (mtKey b) = true) →
      (insertRow r l).find? p =
        (match l.find? p with
          | none => some r
          | some x => if valueLE (mtKey r) (mtKey x) then some r else some x) := by
  intro l
  induction l with
  | nil => intro _; simp [insertRow, List.find?, hp]
  | cons a as ih =>
    intro hsort
    rcases List.pairwise_cons.mp hsort with ⟨ha, has⟩
    rw [insertRow]
    split
    · rename_i hle
      rw [List.find?_cons_of_pos _ hp]
      cases hf : (a :: as).find? p with
      | none => rfl
      | some y =>
        have hy : y ∈ a :: as := List.mem_of_find?_eq_some hf
        have hry : valueLE (mtKey r) (mtKey y) = true := by
          rcases List.mem_cons.mp hy with rfl | hy
          · exact hle
          · exact valueLE_trans hle (ha y hy)
        show some r = if valueLE (mtKey r) (mtKey y) = true then some r else some y
        rw [if_pos hry]
    · rename_i hle
      by_cases hpa : p a = true
      · rw [List.find?_cons_of_pos _ hpa, List.find?_cons_of_pos _ hpa]
        show some a = if valueLE (mtKey r) (mtKey a) = true then some r else some a
        rw [if_neg hle]
      · rw [List.find?_cons_of_neg _ hpa, List.find?_cons_of_neg _ hpa,
          ih has]

theorem mem_dropDupFirst (ids : List String) (r : Row) :
    ∀ (l : List Row) (seen : List (List (Option Value))),
      r ∈ dropDupFirst ids seen l ↔
        pairKey ids r ∉ seen ∧
          l.find? (fun x => decide (pairKey ids x = pairKey ids r)) = some r := by
  intro l
  induction l with
  | nil => intro seen; simp [dropDupFirst, List.find?]
  | cons a l ih =>
    intro seen
    rw [dropDupFirst]
    by_cases hk : pairKey ids a = pairKey ids r
    · rw [List.find?_cons_of_pos _ (by simp [hk])]
      by_cases hseen : pairKey ids a ∈ seen
      · rw [if_pos hseen, ih]
        constructor
        · rintro ⟨hnot, _⟩
          exact absurd (hk ▸ hseen) hnot
        · rintro ⟨hnot, _⟩
          exact absurd (hk ▸ hseen) hnot
      · rw [if_neg hseen, List.mem_cons, ih]
        constructor
        · rintro (rfl | ⟨hnot, _⟩)
          · exact ⟨fun h2 => hseen (by rw [hk]; exact h2), rfl⟩
          · have hmem : pairKey ids r ∈ pairKey ids a :: seen := by
              rw [← hk]
              exact List.mem_cons_self _ _
            exact absurd hmem hnot
        · rintro ⟨hnot, heq⟩
          exact Or.inl (Option.some.inj heq).symm
    · rw [List.find?_cons_of_neg _ (by simp [hk])]
      split
      · exact ih seen
      · rw [List.mem_cons, ih]
        constructor
        · rintro (rfl | ⟨hnot, hfind⟩)
          · exact absurd rfl hk
          · refine ⟨fun h2 => hnot (List.mem_cons_of_mem _ h2), hfind⟩
        · rintro ⟨hnot, hfind⟩
          refine Or.inr ⟨?_, hfind⟩
          intro h2
          rcases List.mem_cons.mp h2 with h3 | h3
          · exact hk h3.symm
          · exact hnot h3

theorem find?_sortRows_firstMin (ids : List String) (k : List (Option Value)) :
    ∀ l : List Row,
      (sortRows l).find? (fun x => decide (pairKey ids x = k)) =
        firstMin ids k l := by
  intro l
  induction l with
  | nil => rfl
  | cons a l ih =>
    have hunf : firstMin ids k (a :: l) =
        (match firstMin ids k l with
          | none => if pairKey ids a = k then some a else none
          | some x =>
            if pairKey ids a = k then
              if valueLE (mtKey a) (mtKey x) then some a else some x
            else some x) := rfl
    show (insertRow a (sortRows l)).find? _ = _
    by_cases hk : pairKey ids a = k
    · rw [find?_insertRow_sorted (by simp [hk]) (sortRows l)
        (pairwise_sortRows l), ih, hunf]
      cases hf : firstMin ids k l with
      | none =>
        show some a = if pairKey ids a = k then some a else none
        rw [if_pos hk]
      | some x =>
        show (if valueLE (mtKey a) (mtKey x) = true then some a else some x) =
          (if pairKey ids a = k then
            if valueLE (mtKey a) (mtKey x) = true then some a else some x
          else some x)
        rw [if_pos hk]
    · rw [find?_insertRow_of_neg (by simp [hk]) (sortRows l), ih, hunf]
      cases hf : firstMin ids k l with
      | none =>
        show (none : Option Row) = if pairKey ids a = k then some a else none
        rw [if_neg hk]
      | some x =>
        show some x =
          (if pairKey ids a = k then
            if valueLE (mtKey a) (mtKey x) = true then some a else some x
          else some x)
        rw [if_neg hk]

theorem find?_sorted_min {p : Row → Bool} :
    ∀ l : List Row,
      l.Pairwise (fun a b => valueLE (mtKey a) (mtKey b) = true) →
      ∀ {r : Row}, l.find? p = some r →
      ∀ x ∈ l, p x = true → valueLE (mtKey r) (mtKey x) = true := by
  intro l
  induction l with
  | nil =>
    intro _ r h
    simp [List.find?] at h
  | cons a as ih =>
    intro hsort r hfind x hx hpx
    rcases List.pairwise_cons.mp hsort with ⟨ha, has⟩
    by_cases hpa : p a = true
    · rw [List.find?_cons_of_pos _ hpa] at hfind
      obtain rfl := Option.some.inj hfind
      rcases List.mem_cons.mp hx with rfl | hx
      · exact valueLE_refl _
      · exact ha x hx
    · rw [List.find?_cons_of_neg _ hpa] at hfind
      rcases List.mem_cons.mp hx with rfl | hx
      · exact absurd hpx hpa
      · exact ih has hfind x hx hpx

theorem remove_duplicate_matches_rows (data : Table) (id_fields : List String)
    (out : Table) (h : remove_duplicate_matches data id_fields = Except.ok out) :
    out.rows = dropDupFirst id_fields [] (sortRows data.rows) := by
  unfold remove_duplicate_matches at h
  by_cases h1 : (id_fields.all (fun c => decide (c ∈ data.cols))) = true
  · rw [if_pos h1] at h
    by_cases h2 : "match_type" ∈ data.cols
    · rw [if_pos h2] at h
      exact congrArg Table.rows (Except.ok.inj h).symm
    · rw [if_neg h2] at h
      exact absurd h (by simp)
  · rw [if_neg h1] at h
    exact absurd h (by simp)

/-- C1: for every match set, deduplication (`remove_duplicate_matches`, the
engine of `MatchResult.unique_matches`) returns a subset of the input rows
with exactly one row per distinct (left key, right key) pair present in the
input, and the retained row's `match_type` is ≤ (in the sort order, null
last) that of every input row with the same pair. -/
theorem remove_duplicate_matches_correct (data : Table) (id_fields : List String)
    (out : Table) (h : remove_duplicate_matches data id_fields = Except.ok out) :
    (∀ r ∈ out.rows, r ∈ data.rows) ∧
    (∀ k, (∃ x ∈ data.rows, pairKey id_fields x = k) →
      ∃! r, r ∈ out.rows ∧ pairKey id_fields r = k) ∧
    (∀ r ∈ out.rows, ∀ x ∈ data.rows,
      pairKey id_fields x = pairKey id_fields r →
      valueLE (mtKey r) (mtKey x) = true) := by
  have hout := remove_duplicate_matches_rows data id_fields out h
  refine ⟨?_, ?_, ?_⟩
  · intro r hr
    rw [hout] at hr
    have hf := ((mem_dropDupFirst id_fields r (sortRows data.rows) []).mp hr).2
    exact (mem_sortRows r data.rows).mp (List.mem_of_find?_eq_some hf)
  · rintro k ⟨x, hx, hkx⟩
    have hxs : x ∈ sortRows data.rows := (mem_sortRows x _).mpr hx
    have hsome : ((sortRows data.rows).find?
        (fun y => decide (pairKey id_fields y = k))).isSome := by
      rw [List.find?_isSome]
      exact ⟨x, hxs, by simp [hkx]⟩
    obtain ⟨r0, hr0⟩ := Option.isSome_iff_exists.mp hsome
    have hkr0 : pairKey id_fields r0 = k := by
      have := List.find?_some hr0
      simpa using this
    refine ⟨r0, ⟨?_, hkr0⟩, ?_⟩
    · rw [hout]
      apply (mem_dropDupFirst id_fields r0 (sortRows data.rows) []).mpr
      refine ⟨by simp, ?_⟩
      rw [hkr0]
      exact hr0
    · rintro r1 ⟨hr1, hkr1⟩
      rw [hout] at hr1
      have h2 := ((mem_dropDupFirst id_fields r1 (sortRows data.rows) []).mp hr1).2
      rw [hkr1] at h2
      rw [h2] at hr0
      exact Option.some.inj hr0
  · intro r hr x hx hkx
    rw [hout] at hr
    have h2 := ((mem_dropDupFirst id_fields r (sortRows data.rows) []).mp hr).2
    exact find?_sorted_min (sortRows data.rows) (pairwise_sortRows _) h2 x
      ((mem_sortRows x _).mpr hx) (by simp [hkx])

/-- C8: the row deduplication retains for a (left key, right key) pair is the
first row, in the input's current order, among the rows of that pair's group
attaining the group's minimal `match_type` — in particular, when two rows of
a pair share the same `match_type` (including two nulls), the earlier row
wins (stable sort by `match_type`, keep-first). -/
theorem remove_duplicate_matches_stable (data : Table) (id_fields : List String)
    (out : Table) (h : remove_duplicate_matches data id_fields = Except.ok out)
    (r : Row) (hr : r ∈ out.rows) :
    firstMin id_fields (pairKey id_fields r) data.rows = some r := by
  have hout := remove_duplicate_matches_rows data id_fields out h
  rw [hout] at hr
  have hf := ((mem_dropDupFirst id_fields r (sortRows data.rows) []).mp hr).2
  rw [← find?_sortRows_firstMin id_fields (pairKey id_fields r) data.rows]
  exact hf

/-- Witness for the deduplication-correctness theorem at the repository's
test fixture. -/
theorem remove_duplicate_matches_correct_witness :
    (∀ r ∈ outDup.rows, r ∈ dfDup.rows) ∧
    (∀ k, (∃ x ∈ dfDup.rows, pairKey ["id1", "id2"] x = k) →
      ∃! r, r ∈ outDup.rows ∧ pairKey ["id1", "id2"] r = k) ∧
    (∀ r ∈ outDup.rows, ∀ x ∈ dfDup.rows,
      pairKey ["id1", "id2"] x = pairKey ["id1", "id2"] r →
      valueLE (mtKey r) (mtKey x) = true) :=
  remove_duplicate_matches_correct dfDup ["id1", "id2"] outDup rfl

/-- Witness for the stable keep-first theorem: the all-null pair (3, 3)
resolves to the first of its two identical-`match_type` rows. -/
theorem remove_duplicate_matches_stable_witness :
    firstMin ["id1", "id2"]
      (pairKey ["id1", "id2"]
        [("id1", Value.int 3), ("id2", Value.int 3), ("match_type", Value.null)])
      dfDup.rows =
      some [("id1", Value.int 3), ("id2", Value.int 3), ("match_type", Value.null)] :=
  remove_duplicate_matches_stable dfDup ["id1", "id2"] outDup rfl
    [("id1", Value.int 3), ("id2", Value.int 3), ("match_type", Value.null)]
    (by decide)

/-- Witness for the cartesian-join theorem at the repository's test tables. -/
theorem crossjoin_correct_witness :
    (crossjoin_dataframes levDf1 levDf2 ("_left", "_right")).rows.length = 3 * 3 ∧
    crossRow levDf1 levDf2 ("_left", "_right")
        [("id1", Value.int 1), ("first", Value.str "Jack"), ("last", Value.str "Smith")]
        [("id2", Value.int 102), ("first", Value.str "Bob"), ("last", Value.str "Kitten")] ∈
      (crossjoin_dataframes levDf1 levDf2 ("_left", "_right")).rows :=
  ⟨(crossjoin_correct levDf1 levDf2 ("_left", "_right")).1,
    (crossjoin_correct levDf1 levDf2 ("_left", "_right")).2.1
      [("id1", Value.int 1), ("first", Value.str "Jack"), ("last", Value.str "Smith")]
      (by decide)
      [("id2", Value.int 102), ("first", Value.str "Bob"), ("last", Value.str "Kitten")]
      (by decide)⟩

/-- C3 counterexample: criteria validation ACCEPTS a criteria list containing
an exact-match criterion with an empty field list, an edit-distance criterion
with an empty field/precision list, and an edit-distance criterion with a
negative integer precision — so the claim that each of these is rejected
before matching is false on the code. -/
theorem validate_accepts_empty_and_negative :
    Matcher.validate_match_criteria [exactEmptyCrit, levEmptyCrit, levNegCrit]
        = true ∧
    exactEmptyCrit.method = some "exact_match" ∧
    exactEmptyCrit.fields = some (FieldsPayload.exactFields []) ∧
    levEmptyCrit.method = some "levenshtein" ∧
    levEmptyCrit.fields = some (FieldsPayload.levFields []) ∧
    levNegCrit.method = some "levenshtein" ∧
    levNegCrit.fields = some (FieldsPayload.levFields
      [⟨some "first", some (PrecVal.int (-1))⟩]) :=
  ⟨rfl, rfl, rfl, rfl, rfl, rfl, rfl⟩

/-- C3 amended: of the claimed pre-matching rejections only the integer
check on precisions is real.  An edit-distance criterion containing a
field/precision entry whose `precision` value is not an `int` fails
validation before any matching is attempted; but an exact-match criterion
with an empty field list, an edit-distance criterion with an empty list of
field/precision pairs, and a negative integer precision all pass validation
(such criteria can fail only when they are executed). -/
theorem validate_match_criteria_rejects :
    (∀ cs (c : Criterion) fs e s, c ∈ cs → c.method = some "levenshtein" →
      c.fields = some (FieldsPayload.levFields fs) → e ∈ fs →
      e.precision = some (PrecVal.nonInt s) →
      Matcher.validate_match_criteria cs = false) ∧
    Matcher.validate_match_criteria [exactEmptyCrit, levEmptyCrit, levNegCrit]
      = true := by
  have hfail : ∀ (cs : List Criterion) (c : Criterion), c ∈ cs →
      criterionOk c = false → Matcher.validate_match_criteria cs = false := by
    intro cs c hc hbad
    rw [Matcher.validate_match_criteria]
    cases hall : cs.all criterionOk with
    | false => rfl
    | true => exact absurd (List.all_eq_true.mp hall c hc) (by simp [hbad])
  refine ⟨?_, rfl⟩
  intro cs c fs e s hc hm hf he hp
  refine hfail cs c hc ?_
  rw [criterionOk, hm]
  have : fs.all levEntryOk = false := by
    cases hall : fs.all levEntryOk with
    | false => rfl
    | true =>
      have := List.all_eq_true.mp hall e he
      rw [levEntryOk, hp] at this
      simp at this
  simp [hf, this]

/-- Witness for the amended validation theorem: the repository's own
invalid-precision test case (string precision `"1"`) is rejected. -/
theorem validate_match_criteria_rejects_witness :
    Matcher.validate_match_criteria [levBadPrecCrit] = false :=
  validate_match_criteria_rejects.1 [levBadPrecCrit] levBadPrecCrit
    [⟨some "first_name", some (PrecVal.nonInt "1")⟩]
    ⟨some "first_name", some (PrecVal.nonInt "1")⟩ "1"
    (List.mem_cons_self _ _) rfl rfl (List.mem_cons_self _ _) rfl

/-- C10: calling `create_matches` with an empty criteria list raises rather
than returning an empty result: validation accepts the empty list (its loop
is vacuous), the dispatch loop produces zero result tables, and
`pd.concat([])` raises, leaving the matcher untouched. -/
theorem create_matches_empty_criteria (m : Matcher) :
    Matcher.validate_match_criteria [] = true ∧
    (m.create_matches []).1 =
      Except.error "ValueError: No objects to concatenate" ∧
    (m.create_matches []).2 = m :=
  ⟨rfl, rfl, rfl⟩

/-- C4 (code bug in `match_on_function`): when the user function succeeds on
the left table but raises on the right table, the error propagates while the
left table still carries the derived scratch column — the source drops the
column only after the inner match, with no try/finally, so on this exit path
the left table does NOT return to its pre-call column set (the right table
does, by accident of ordering). -/
theorem match_on_function_leaks_column :
    (mFunc.match_on_function extraFunc "extracted" (Value.int 1)).1 =
      Except.error "KeyError: extra" ∧
    mFunc.left_data.cols = ["id1", "extra"] ∧
    (mFunc.match_on_function extraFunc "extracted" (Value.int 1)).2.1.cols =
      ["id1", "extra", "extracted"] ∧
    (mFunc.match_on_function extraFunc "extracted" (Value.int 1)).2.2.cols =
      ["id2"] :=
  ⟨rfl, rfl, rfl, rfl⟩

/-- C9 counterexample: when the left and right key fields share the name `id`
(self-linkage) and the match is on another field, the merge suffixes the key
columns to `id_left`/`id_right` — the key fields do NOT retain their
original names — and the subsequent `merged_df['id']` lookup raises a
`KeyError`, so `match_on_field` yields no result at all. -/
theorem match_on_field_self_linkage_fails :
    (mergeOn mSelf.left_data mSelf.right_data ["f"] mSelf.suffixes).cols =
      ["id_left", "f", "id_right"] ∧
    "id" ∉ (mergeOn mSelf.left_data mSelf.right_data ["f"] mSelf.suffixes).cols ∧
    mSelf.match_on_field ["f"] (Value.int 1) = Except.error "KeyError" :=
  ⟨rfl, by decide, rfl⟩

theorem mem_setColWith_cols (t : Table) (c d : String) (f : Row → Value)
    (h : c ∈ t.cols) : c ∈ (t.setColWith d f).cols := by
  rw [Table.setColWith]
  split
  · exact h
  · exact List.mem_append.mpr (Or.inl h)

/-- C9 amended: in every `match_on_field` result, provided the two key field
names are distinct and neither occurs in the other table, every column name
occurring in both tables (other than the join fields) appears with the
configured left and right suffixes appended, and the two key fields appear
under their original, unsuffixed names.  (With a shared key name the call
fails instead — see the self-linkage counterexample.) -/
theorem match_on_field_suffixes (m : Matcher) (field_list : List String)
    (tid : Value)
    (hne : field_list ≠ [])
    (hpresentL : ∀ c ∈ field_list, c ∈ m.left_data.cols)
    (hpresentR : ∀ c ∈ field_list, c ∈ m.right_data.cols)
    (hlid : m.left_id_field ∈ m.left_data.cols)
    (hlidR : m.left_id_field ∉ m.right_data.cols)
    (hrid : m.right_id_field ∈ m.right_data.cols)
    (hridL : m.right_id_field ∉ m.left_data.cols) :
    ∃ out, m.match_on_field field_list tid = Except.ok out ∧
      m.left_id_field ∈ out.cols ∧
      m.right_id_field ∈ out.cols ∧
      (∀ c, c ∈ m.left_data.cols → c ∈ m.right_data.cols → c ∉ field_list →
        (c ++ m.suffixes.1) ∈ out.cols ∧ (c ++ m.suffixes.2) ∈ out.cols) := by
  have hlid_merged : m.left_id_field ∈
      (mergeOn m.left_data m.right_data field_list m.suffixes).cols := by
    apply List.mem_append.mpr
    left
    apply List.mem_map.mpr
    refine ⟨m.left_id_field, hlid, ?_⟩
    rw [renameLeft, if_neg (fun hcontra => hlidR hcontra.1)]
  rw [Matcher.match_on_field, if_neg (by simp [hne]),
    if_pos (by
      rw [Bool.and_eq_true]
      constructor
      · exact List.all_eq_true.mpr (fun c hc => by simpa using hpresentL c hc)
      · exact List.all_eq_true.mpr (fun c hc => by simpa using hpresentR c hc)),
    if_pos hlid_merged]
  refine ⟨_, rfl, ?_, ?_, ?_⟩
  · exact mem_setColWith_cols _ _ _ _ (mem_setColWith_cols _ _ _ _ hlid_merged)
  · refine mem_setColWith_cols _ _ _ _ (mem_setColWith_cols _ _ _ _ ?_)
    apply List.mem_append.mpr
    right
    apply List.mem_map.mpr
    refine ⟨m.right_id_field, ?_, ?_⟩
    · refine List.mem_filter.mpr ⟨hrid, ?_⟩
      simp only [decide_eq_true_eq]
      intro hmem
      exact hridL (hpresentL _ hmem)
    · rw [renameRight, if_neg (fun hcontra => hridL hcontra.1)]
  · intro c hcl hcr hcf
    constructor
    · refine mem_setColWith_cols _ _ _ _ (mem_setColWith_cols _ _ _ _ ?_)
      apply List.mem_append.mpr
      left
      apply List.mem_map.mpr
      refine ⟨c, hcl, ?_⟩
      rw [renameLeft, if_pos ⟨hcr, hcf⟩]
    · refine mem_setColWith_cols _ _ _ _ (mem_setColWith_cols _ _ _ _ ?_)
      apply List.mem_append.mpr
      right
      apply List.mem_map.mpr
      refine ⟨c, List.mem_filter.mpr ⟨hcr, by simpa using hcf⟩, ?_⟩
      rw [renameRight, if_pos ⟨hcl, hcf⟩]

/-- Witness for the amended suffixing theorem at the repository's test
tables (keys `id1`/`id2`, collision columns `first`/`last`, join on
`first`). -/
theorem match_on_field_suffixes_witness :
    ∃ out, mBob.match_on_field ["first"] (Value.int 1) = Except.ok out ∧
      mBob.left_id_field ∈ out.cols ∧
      mBob.right_id_field ∈ out.cols ∧
      (∀ c, c ∈ mBob.left_data.cols → c ∈ mBob.right_data.cols →
        c ∉ ["first"] →
        (c ++ mBob.suffixes.1) ∈ out.cols ∧ (c ++ mBob.suffixes.2) ∈ out.cols) :=
  match_on_field_suffixes mBob ["first"] (Value.int 1) (by decide)
    (by decide) (by decide) (by decide) (by decide) (by decide) (by decide)

/-- Renaming a row's keys with a function that fixes each of its keys is the
identity. -/
theorem renameRowKeys_id (f : String → String) (r : Row)
    (h : ∀ p ∈ r, f p.1 = p.1) : renameRowKeys f r = r := by
  rw [renameRowKeys]
  conv_rhs => rw [← List.map_id r]
  exact List.map_congr_left (fun p hp => by rw [h p hp]; rfl)

/-- `renameLeft` fixes every join-key column. -/
theorem renameLeft_id_of_mem_ks (rcols ks : List String) (suf c : String)
    (h : c ∈ ks) : renameLeft rcols ks suf c = c := by
  rw [renameLeft, if_neg]
  rintro ⟨_, hk⟩
  exact hk h

/-- `renameLeft` fixes a column whose only possible collision is a join key. -/
theorem renameLeft_id_of_all (rcols ks : List String) (suf c : String)
    (h : c ∈ rcols → c ∈ ks) : renameLeft rcols ks suf c = c := by
  rw [renameLeft, if_neg]
  rintro ⟨hr, hk⟩
  exact hk (h hr)

/-- `renameRight` fixes a column whose only possible collision is a join
key. -/
theorem renameRight_id_of_all (lcols ks : List String) (suf c : String)
    (h : c ∈ lcols → c ∈ ks) : renameRight lcols ks suf c = c := by
  rw [renameRight, if_neg]
  rintro ⟨hr, hk⟩
  exact hk (h hr)

/-- A column absent from a row's keys looks up to `none`. -/
theorem Row.get_none_of_not_mem (r : Row) (c : String)
    (h : c ∉ r.map Prod.fst) : Row.get r c = none := by
  induction r with
  | nil => rfl
  | cons p rs ih =>
    rw [List.map_cons] at h
    have hpc : ¬ p.1 = c := fun he => h (by rw [← he]; exact List.mem_cons_self _ _)
    rw [Row.get, List.find?_cons_of_neg _ (by simp [hpc])]
    exact ih (fun hm => h (List.mem_cons_of_mem _ hm))

/-- A column among a row's keys looks up to some value. -/
theorem Row.get_mem_keys (r : Row) (c : String) (h : c ∈ r.map Prod.fst) :
    ∃ v, Row.get r c = some v := by
  induction r with
  | nil => cases h
  | cons p rs ih =>
    by_cases hp : p.1 = c
    · refine ⟨p.2, ?_⟩
      rw [Row.get, List.find?_cons_of_pos _ (by simp [hp])]
      rfl
    · rw [List.map_cons] at h
      rcases List.mem_cons.mp h with h1 | h1
      · exact absurd h1.symm hp
      · rcases ih h1 with ⟨v, hv⟩
        refine ⟨v, ?_⟩
        rw [Row.get, List.find?_cons_of_neg _ (by simp [hp])]
        exact hv

/-- Lookup in an append resolves in the left part when it hits there. -/
theorem Row.get_append_some (r s : Row) (c : String) (v : Value)
    (h : Row.get r c = some v) : Row.get (r ++ s) c = some v := by
  rw [Row.get_append, h]

/-- Lookup in an append falls through to the right part. -/
theorem Row.get_append_none (r s : Row) (c : String)
    (h : Row.get r c = none) : Row.get (r ++ s) c = Row.get s c := by
  rw [Row.get_append, h]

/-- Defaulted lookup in an append falls through to the right part when the
column is not a key of the left part. -/
theorem Row.getD_append_none (r s : Row) (c : String)
    (h : c ∉ r.map Prod.fst) : Row.getD (r ++ s) c = Row.getD s c := by
  rw [Row.getD, Row.getD, Row.get_append_none r s c (Row.get_none_of_not_mem r c h)]

/-- Lookup in a column-tagged list of cells. -/
theorem Row.get_tagged (cs : List String) (v : String → Value) (d : String) :
    Row.get (cs.map (fun c => (c, v c))) d =
      if d ∈ cs then some (v d) else none := by
  induction cs with
  | nil => rfl
  | cons c cs ih =>
    rw [List.map_cons]
    by_cases hc : c = d
    · subst hc
      rw [Row.get, List.find?_cons_of_pos _ (by simp),
        if_pos (List.mem_cons_self _ _)]
      rfl
    · rw [Row.get, List.find?_cons_of_neg _ (by simp [hc])]
      rw [Row.get] at ih
      rw [ih]
      by_cases hd : d ∈ cs
      · rw [if_pos hd, if_pos (List.mem_cons_of_mem _ hd)]
      · rw [if_neg hd, if_neg (by
          intro hmem
          rcases List.mem_cons.mp hmem with h1 | h1
          · exact hc h1.symm
          · exact hd h1)]

/-- Dropping a single key is erasing that key. -/
theorem Row.dropKeys_single (r : Row) (rid : String) :
    Row.dropKeys r [rid] = Row.eraseKey r rid := by
  rw [Row.dropKeys, Row.eraseKey]
  apply List.filter_congr
  intro p _
  simp [List.mem_singleton]

/-- When the only column the two frames share is the join key, no renaming
happens in the right-only padding row. -/
theorem rightOnlyRow_eq (mrcols Rcols : List String) (rid : String)
    (suf : String × String) (b : Row) (hbw : b.map Prod.fst = Rcols)
    (hint2 : ∀ c ∈ mrcols, c ∈ Rcols → c = rid) :
    rightOnlyRow mrcols Rcols rid suf b =
      mrcols.map (fun c => (c, if c = rid then Row.getD b rid else Value.null)) ++
        Row.dropKeys b [rid] := by
  rw [rightOnlyRow]
  congr 1
  · rw [renameRowKeys, List.map_map]
    conv_rhs => rw [← List.map_id (mrcols.map _)]
    rw [List.map_map]
    apply List.map_congr_left
    intro c hc
    show (renameLeft Rcols [rid] suf.1 c,
      if c = rid then Row.getD b rid else Value.null) = _
    rw [renameLeft_id_of_all Rcols [rid] suf.1 c
      (fun hR => List.mem_singleton.mpr (hint2 c hc hR))]
    rfl
  · apply renameRowKeys_id
    intro p hp
    have hpb : p ∈ b := List.mem_of_mem_filter hp
    have hp1 : p.1 ∈ Rcols := by
      rw [← hbw]
      exact List.mem_map.mpr ⟨p, hpb, rfl⟩
    exact renameRight_id_of_all mrcols [rid] suf.2 p.1
      (fun hm => List.mem_singleton.mpr (hint2 p.1 hm hp1))

/-- When the only shared column is the join key, the combined row of the
right merge is a plain append. -/
theorem combineRow_id (mrcols Rcols : List String) (rid : String)
    (suf : String × String) (a b : Row)
    (haw : a.map Prod.fst = mrcols) (hbw : b.map Prod.fst = Rcols)
    (hint2 : ∀ c ∈ mrcols, c ∈ Rcols → c = rid) :
    combineRow mrcols Rcols [rid] suf a b = a ++ Row.dropKeys b [rid] := by
  rw [combineRow]
  congr 1
  · apply renameRowKeys_id
    intro p hp
    have hp1 : p.1 ∈ mrcols := by
      rw [← haw]
      exact List.mem_map.mpr ⟨p, hp, rfl⟩
    exact renameLeft_id_of_all Rcols [rid] suf.1 p.1
      (fun hR => List.mem_singleton.mpr (hint2 p.1 hp1 hR))
  · apply renameRowKeys_id
    intro p hp
    have hpb : p ∈ b := List.mem_of_mem_filter hp
    have hp1 : p.1 ∈ Rcols := by
      rw [← hbw]
      exact List.mem_map.mpr ⟨p, hpb, rfl⟩
    exact renameRight_id_of_all mrcols [rid] suf.2 p.1
      (fun hm => List.mem_singleton.mpr (hint2 p.1 hm hp1))

/-- Keys of the right-only padding row all come from one of the frames. -/
theorem rightOnlyRow_keys_sub (mrcols Rcols : List String) (rid : String)
    (suf : String × String) (b : Row) (hbw : b.map Prod.fst = Rcols)
    (hint2 : ∀ c ∈ mrcols, c ∈ Rcols → c = rid) :
    ∀ c ∈ (rightOnlyRow mrcols Rcols rid suf b).map Prod.fst,
      c ∈ mrcols ∨ c ∈ Rcols := by
  rw [rightOnlyRow_eq mrcols Rcols rid suf b hbw hint2]
  intro c hc
  rw [List.map_append] at hc
  rcases List.mem_append.mp hc with h | h
  · left
    rw [List.map_map] at h
    rcases List.mem_map.mp h with ⟨d, hd, hde⟩
    rw [← hde]
    exact hd
  · right
    rcases List.mem_map.mp h with ⟨p, hp, hpe⟩
    have hpb : p ∈ b := List.mem_of_mem_filter hp
    rw [← hbw, ← hpe]
    exact List.mem_map.mpr ⟨p, hpb, rfl⟩

/-- When the only shared column is the join key, the merge's output column
list is unrenamed. -/
theorem mergeCols_id (mrcols Rcols : List String) (rid : String)
    (suf : String × String)
    (hint2 : ∀ c ∈ mrcols, c ∈ Rcols → c = rid) :
    mergeCols mrcols Rcols [rid] suf =
      mrcols ++ Rcols.filter (fun c => decide (c ∉ [rid])) := by
  rw [mergeCols]
  congr 1
  · conv_rhs => rw [← List.map_id mrcols]
    apply List.map_congr_left
    intro c hc
    exact renameLeft_id_of_all Rcols [rid] suf.1 c
      (fun hR => List.mem_singleton.mpr (hint2 c hc hR))
  · conv_rhs => rw [← List.map_id (Rcols.filter _)]
    apply List.map_congr_left
    intro c hc
    have hcR : c ∈ Rcols := List.mem_of_mem_filter hc
    exact renameRight_id_of_all mrcols [rid] suf.2 c
      (fun hm => List.mem_singleton.mpr (hint2 c hm hcR))

/-- On every right-table column the right-only padding row (with its
indicator entry) looks up to the right row's own value. -/
theorem get_roFull (mrcols Rcols : List String) (rid : String)
    (suf : String × String) (b : Row) (c : String)
    (hbw : b.map Prod.fst = Rcols)
    (hint2 : ∀ c ∈ mrcols, c ∈ Rcols → c = rid)
    (hrid1 : rid ∈ mrcols) (hc : c ∈ Rcols) :
    Row.get (rightOnlyRow mrcols Rcols rid suf b ++
      [("_merge", Value.str "right_only")]) c = Row.get b c := by
  have hbk : c ∈ b.map Prod.fst := by rw [hbw]; exact hc
  rcases Row.get_mem_keys b c hbk with ⟨v, hv⟩
  rw [rightOnlyRow_eq mrcols Rcols rid suf b hbw hint2]
  by_cases hcr : c = rid
  · subst hcr
    have h1 : Row.get (mrcols.map
        (fun d => (d, if d = c then Row.getD b c else Value.null))) c =
          some (Row.getD b c) := by
      rw [Row.get_tagged, if_pos hrid1]
      simp
    have h2 : Row.get ((mrcols.map
        (fun d => (d, if d = c then Row.getD b c else Value.null)) ++
          Row.dropKeys b [c]) ++ [("_merge", Value.str "right_only")]) c =
          some (Row.getD b c) :=
      Row.get_append_some _ _ _ _ (Row.get_append_some _ _ _ _ h1)
    rw [h2, Row.getD, hv]
    rfl
  · have hcm : c ∉ mrcols := fun hm => hcr (hint2 c hm hc)
    have h1 : Row.get (mrcols.map
        (fun d => (d, if d = rid then Row.getD b rid else Value.null))) c =
          none := by
      rw [Row.get_tagged, if_neg hcm]
    have h2 : Row.get (Row.dropKeys b [rid]) c = some v := by
      rw [Row.dropKeys_single, Row.get_eraseKey_ne b hcr, hv]
    have h3 : Row.get (mrcols.map
        (fun d => (d, if d = rid then Row.getD b rid else Value.null)) ++
          Row.dropKeys b [rid]) c = some v := by
      rw [Row.get_append_none _ _ _ h1]
      exact h2
    rw [Row.get_append_some _ _ _ _ h3, hv]

/-- The padding row's indicator cell reads `right_only`. -/
theorem roFull_merge_val (mrcols Rcols : List String) (rid : String)
    (suf : String × String) (b : Row) (hbw : b.map Prod.fst = Rcols)
    (hint2 : ∀ c ∈ mrcols, c ∈ Rcols → c = rid)
    (hmg1 : "_merge" ∉ mrcols) (hmg2 : "_merge" ∉ Rcols) :
    Row.getD (rightOnlyRow mrcols Rcols rid suf b ++
      [("_merge", Value.str "right_only")]) "_merge" =
        Value.str "right_only" := by
  rw [Row.getD_append_none _ _ _ (fun hm => by
    rcases rightOnlyRow_keys_sub mrcols Rcols rid suf b hbw hint2 _ hm with h | h
    · exact hmg1 h
    · exact hmg2 h)]
  rfl

/-- A combined (matched) row's indicator cell reads `both`. -/
theorem bothRow_merge_val (mrcols Rcols : List String) (rid : String)
    (suf : String × String) (a b : Row)
    (haw : a.map Prod.fst = mrcols) (hbw : b.map Prod.fst = Rcols)
    (hint2 : ∀ c ∈ mrcols, c ∈ Rcols → c = rid)
    (hmg1 : "_merge" ∉ mrcols) (hmg2 : "_merge" ∉ Rcols) :
    Row.getD (combineRow mrcols Rcols [rid] suf a b ++
      [("_merge", Value.str "both")]) "_merge" = Value.str "both" := by
  rw [combineRow_id mrcols Rcols rid suf a b haw hbw hint2, List.append_assoc,
    Row.getD_append_none _ _ _ (fun hm => hmg1 (by rw [← haw]; exact hm)),
    Row.getD_append_none _ _ _ (fun hm => by
      rcases List.mem_map.mp hm with ⟨p, hp, hpe⟩
      have hpb : p ∈ b := List.mem_of_mem_filter hp
      exact hmg2 (by rw [← hbw, ← hpe]; exact List.mem_map.mpr ⟨p, hpb, rfl⟩))]
  rfl

/-- The indicator filter on one right row's block keeps exactly the padding
row, and only when the right row is unmatched. -/
theorem filter_rightRowsOne (mr R : Table) (rid : String) (b : Row)
    (hwfm : ∀ r ∈ mr.rows, r.map Prod.fst = mr.cols)
    (hbw : b.map Prod.fst = R.cols)
    (hmg1 : "_merge" ∉ mr.cols) (hmg2 : "_merge" ∉ R.cols)
    (hint2 : ∀ c ∈ mr.cols, c ∈ R.cols → c = rid) :
    (rightRowsOne mr.cols R.cols rid ("_x", "_y") mr.rows b).filter
        (fun r => decide (Row.getD r "_merge" = Value.str "right_only")) =
      if (mr.rows.filter (fun a => keysMatch [rid] a b)).isEmpty then
        [rightOnlyRow mr.cols R.cols rid ("_x", "_y") b ++
          [("_merge", Value.str "right_only")]]
      else [] := by
  rw [rightRowsOne]
  by_cases hms : (mr.rows.filter (fun a => keysMatch [rid] a b)).isEmpty = true
  · rw [if_pos hms, if_pos hms,
      List.filter_cons_of_pos (by
        rw [roFull_merge_val mr.cols R.cols rid ("_x", "_y") b hbw hint2 hmg1 hmg2]
        simp),
      List.filter_nil]
  · rw [if_neg hms, if_neg hms]
    apply List.filter_eq_nil_iff.mpr
    intro r' hr'
    rcases List.mem_map.mp hr' with ⟨a, ha, hae⟩
    have haw : a.map Prod.fst = mr.cols := hwfm a (List.mem_of_mem_filter ha)
    rw [← hae,
      bothRow_merge_val mr.cols R.cols rid ("_x", "_y") a b haw hbw hint2 hmg1 hmg2]
    simp

/-- The `right_only` selection of the indicator merge: one padding row per
unmatched right row, in right order. -/
theorem filter_rightRowsAll (mr R : Table) (rid : String)
    (hwfm : ∀ r ∈ mr.rows, r.map Prod.fst = mr.cols)
    (hmg1 : "_merge" ∉ mr.cols) (hmg2 : "_merge" ∉ R.cols)
    (hint2 : ∀ c ∈ mr.cols, c ∈ R.cols → c = rid) :
    ∀ bs : List Row, (∀ b ∈ bs, b.map Prod.fst = R.cols) →
      (rightRowsAll mr.cols R.cols rid ("_x", "_y") mr.rows bs).filter
          (fun r => decide (Row.getD r "_merge" = Value.str "right_only")) =
        (bs.filter (fun b =>
            (mr.rows.filter (fun a => keysMatch [rid] a b)).isEmpty)).map
          (fun b => rightOnlyRow mr.cols R.cols rid ("_x", "_y") b ++
            [("_merge", Value.str "right_only")]) := by
  intro bs
  induction bs with
  | nil => intro _; rfl
  | cons b bs ih =>
    intro hw
    rw [rightRowsAll, List.filter_append,
      filter_rightRowsOne mr R rid b hwfm (hw b (List.mem_cons_self _ _))
        hmg1 hmg2 hint2,
      ih (fun x hx => hw x (List.mem_cons_of_mem _ hx)), List.filter_cons]
    by_cases hms : (mr.rows.filter (fun a => keysMatch [rid] a b)).isEmpty = true
    · rw [if_pos hms, if_pos hms, List.map_cons]
      rfl
    · rw [if_neg hms, if_neg hms]
      rfl

/-- Head hit for a defaulted lookup. -/
theorem Row.getD_cons_self (p : String × Value) (rs : Row) :
    Row.getD (p :: rs) p.1 = p.2 := by
  rw [Row.getD, Row.get, List.find?_cons_of_pos _ (by simp)]
  rfl

/-- Head miss for a defaulted lookup. -/
theorem Row.getD_cons_ne (p : String × Value) (rs : Row) (c : String)
    (h : ¬ p.1 = c) : Row.getD (p :: rs) c = Row.getD rs c := by
  rw [Row.getD, Row.getD, Row.get, Row.get,
    List.find?_cons_of_neg _ (by simp [h])]

/-- Projecting a row onto its own (duplicate-free) key list is the
identity. -/
theorem projectRow_keys_self : ∀ r : Row, (r.map Prod.fst).Nodup →
    projectRow (r.map Prod.fst) r = r := by
  intro r
  induction r with
  | nil => intro _; rfl
  | cons p rs ih =>
    intro hn
    rw [List.map_cons] at hn
    have hhead : p.1 ∉ rs.map Prod.fst := (List.nodup_cons.mp hn).1
    have htail : (rs.map Prod.fst).Nodup := (List.nodup_cons.mp hn).2
    show ((p.1 :: rs.map Prod.fst).map fun c => (c, Row.getD (p :: rs) c)) =
      p :: rs
    rw [List.map_cons, Row.getD_cons_self]
    refine congrArg₂ List.cons rfl ?_
    rw [List.map_congr_left (fun c hc => by
      rw [Row.getD_cons_ne p rs c (fun he => hhead (by rw [he]; exact hc))])]
    exact ih htail

/-- A well-formed row over duplicate-free columns projects to itself. -/
theorem projectRow_wf (r : Row) (cs : List String)
    (hw : r.map Prod.fst = cs) (hn : cs.Nodup) : projectRow cs r = r := by
  subst hw
  exact projectRow_keys_self r hn

/-- Projection onto columns resolved by the left part of an append ignores
the right part. -/
theorem projectRow_append_left (cs : List String) (r s : Row)
    (h : ∀ c ∈ cs, c ∈ r.map Prod.fst) :
    projectRow cs (r ++ s) = projectRow cs r := by
  rw [projectRow, projectRow]
  apply List.map_congr_left
  intro c hc
  rcases Row.get_mem_keys r c (h c hc) with ⟨v, hv⟩
  rw [Row.getD, Row.getD, Row.get_append_some r s c v hv, hv]

/-- `keysMatch` on a single key is one cell comparison. -/
theorem keysMatch_single (c : String) (a b : Row) :
    keysMatch [c] a b = decide (Row.get a c = Row.get b c) := by
  rw [keysMatch, List.all_cons, List.all_nil, Bool.and_true]

/-- A right row key-matches a padding row precisely when the padding row was
built from it (right-table keys are unique). -/
theorem keysMatch_roFull (mr R : Table) (rid : String) (b b' : Row)
    (hb : b ∈ R.rows) (hb' : b' ∈ R.rows)
    (hwfr : ∀ r ∈ R.rows, r.map Prod.fst = R.cols)
    (hkeyU : ∀ b1 ∈ R.rows, ∀ b2 ∈ R.rows,
      Row.getD b1 rid = Row.getD b2 rid → b1 = b2)
    (hint2 : ∀ c ∈ mr.cols, c ∈ R.cols → c = rid)
    (hrid1 : rid ∈ mr.cols) (hrid2 : rid ∈ R.cols) :
    keysMatch R.cols b (rightOnlyRow mr.cols R.cols rid ("_x", "_y") b' ++
      [("_merge", Value.str "right_only")]) = decide (b = b') := by
  by_cases hbe : b = b'
  · rw [decide_eq_true hbe, ← hbe, keysMatch]
    apply List.all_eq_true.mpr
    intro c hc
    simp only [decide_eq_true_eq]
    exact (get_roFull mr.cols R.cols rid ("_x", "_y") b c (hwfr b hb) hint2
      hrid1 hc).symm
  · rw [decide_eq_false hbe]
    cases hk : keysMatch R.cols b (rightOnlyRow mr.cols R.cols rid ("_x", "_y")
        b' ++ [("_merge", Value.str "right_only")]) with
    | false => rfl
    | true =>
      exfalso
      rw [keysMatch] at hk
      have h1 := List.all_eq_true.mp hk rid hrid2
      simp only [decide_eq_true_eq] at h1
      rw [get_roFull mr.cols R.cols rid ("_x", "_y") b' rid (hwfr b' hb') hint2
        hrid1 hrid2] at h1
      apply hbe
      apply hkeyU b hb b' hb'
      rw [Row.getD, Row.getD, h1]

/-- Filtering a duplicate-free list by a mask and by equality with one of its
members yields that member alone (when it passes the mask). -/
theorem filter_filter_eq_singleton (q : Row → Bool) :
    ∀ (l : List Row) (b : Row), l.Nodup → b ∈ l →
      (l.filter q).filter (fun b' => decide (b = b')) =
        if q b then [b] else [] := by
  intro l
  induction l with
  | nil => intro b _ hb; cases hb
  | cons x xs ih =>
    intro b hn hb
    rw [List.nodup_cons] at hn
    rcases List.mem_cons.mp hb with hbx | hbx
    · have hnb : b ∉ xs := by rw [hbx]; exact hn.1
      have hrest : (xs.filter q).filter (fun b' => decide (b = b')) = [] := by
        apply List.filter_eq_nil_iff.mpr
        intro y hy
        have hyx : y ∈ xs := List.mem_of_mem_filter hy
        have hne : ¬ b = y := fun he => hnb (by rw [he]; exact hyx)
        simp [hne]
      rw [List.filter_cons]
      by_cases hq : q x = true
      · rw [if_pos hq, List.filter_cons, if_pos (by simp [hbx]), hrest,
          if_pos (by rw [hbx]; exact hq), hbx]
      · rw [if_neg hq, hrest, if_neg (by rw [hbx]; exact hq)]
    · have hxb : ¬ b = x := fun he => hn.1 (by rw [← he]; exact hbx)
      rw [List.filter_cons]
      by_cases hq : q x = true
      · rw [if_pos hq, List.filter_cons, if_neg (by simp [hxb]),
          ih b hn.2 hbx]
      · rw [if_neg hq, ih b hn.2 hbx]

/-- The emptiness test of the per-row match filter is the claim's key-absence
predicate. -/
theorem isEmpty_filter_keysMatch (lrows : List Row) (rid : String) (b : Row) :
    (lrows.filter (fun a => keysMatch [rid] a b)).isEmpty =
      decide (∀ a ∈ lrows, Row.get a rid ≠ Row.get b rid) := by
  induction lrows with
  | nil => simp
  | cons a as ih =>
    rw [List.filter_cons]
    by_cases h : keysMatch [rid] a b = true
    · rw [if_pos h]
      have heq : Row.get a rid = Row.get b rid := by
        rw [keysMatch_single] at h
        exact of_decide_eq_true h
      rw [List.isEmpty_cons]
      symm
      apply decide_eq_false
      intro hall
      exact hall a (List.mem_cons_self _ _) heq
    · rw [if_neg h, ih]
      have hne : Row.get a rid ≠ Row.get b rid := by
        rw [keysMatch_single] at h
        exact fun he => h (decide_eq_true he)
      apply decide_eq_decide.mpr
      constructor
      · intro h' x hx
        rcases List.mem_cons.mp hx with rfl | hx'
        · exact hne
        · exact h' x hx'
      · intro h' x hx
        exact h' x (List.mem_cons_of_mem _ hx)

/-- The natural join of the right table against the padding rows picks, for
each right row, exactly its own padding row — and only for unmatched rows. -/
theorem innerRows_roList (mr R : Table) (rid : String) (roCols : List String)
    (hwfr : ∀ r ∈ R.rows, r.map Prod.fst = R.cols)
    (hnodr : R.rows.Nodup)
    (hkeyU : ∀ b1 ∈ R.rows, ∀ b2 ∈ R.rows,
      Row.getD b1 rid = Row.getD b2 rid → b1 = b2)
    (hint2 : ∀ c ∈ mr.cols, c ∈ R.cols → c = rid)
    (hrid1 : rid ∈ mr.cols) (hrid2 : rid ∈ R.cols) :
    ∀ ls : List Row, (∀ b ∈ ls, b ∈ R.rows) →
      innerRows R.cols (combineRow R.cols roCols R.cols ("_x", "_y"))
          ((R.rows.filter (fun b' =>
              (mr.rows.filter (fun a => keysMatch [rid] a b')).isEmpty)).map
            (fun b' => rightOnlyRow mr.cols R.cols rid ("_x", "_y") b' ++
              [("_merge", Value.str "right_only")])) ls =
        (ls.filter (fun b =>
            (mr.rows.filter (fun a => keysMatch [rid] a b)).isEmpty)).map
          (fun b => combineRow R.cols roCols R.cols ("_x", "_y") b
            (rightOnlyRow mr.cols R.cols rid ("_x", "_y") b ++
              [("_merge", Value.str "right_only")])) := by
  intro ls
  induction ls with
  | nil => intro _; rfl
  | cons b bs ih =>
    intro hmem
    have hb : b ∈ R.rows := hmem b (List.mem_cons_self _ _)
    rw [innerRows]
    have hcong : List.filter
        ((fun r' => keysMatch R.cols b r') ∘
          (fun b' => rightOnlyRow mr.cols R.cols rid ("_x", "_y") b' ++
            [("_merge", Value.str "right_only")]))
        (R.rows.filter (fun b' =>
          (mr.rows.filter (fun a => keysMatch [rid] a b')).isEmpty)) =
      List.filter (fun b' => decide (b = b'))
        (R.rows.filter (fun b' =>
          (mr.rows.filter (fun a => keysMatch [rid] a b')).isEmpty)) := by
      apply List.filter_congr
      intro b' hb'
      have hb'R : b' ∈ R.rows := List.mem_of_mem_filter hb'
      show keysMatch R.cols b (rightOnlyRow mr.cols R.cols rid ("_x", "_y") b'
        ++ [("_merge", Value.str "right_only")]) = decide (b = b')
      exact keysMatch_roFull mr R rid b b' hb hb'R hwfr hkeyU hint2 hrid1 hrid2
    have hfil : (((R.rows.filter (fun b' =>
        (mr.rows.filter (fun a => keysMatch [rid] a b')).isEmpty)).map
          (fun b' => rightOnlyRow mr.cols R.cols rid ("_x", "_y") b' ++
            [("_merge", Value.str "right_only")])).filter
          (fun r' => keysMatch R.cols b r')) =
        if (mr.rows.filter (fun a => keysMatch [rid] a b)).isEmpty then
          [rightOnlyRow mr.cols R.cols rid ("_x", "_y") b ++
            [("_merge", Value.str "right_only")]]
        else [] := by
      rw [List.filter_map, hcong, filter_filter_eq_singleton _ R.rows b hnodr hb]
      by_cases hms :
          (mr.rows.filter (fun a => keysMatch [rid] a b)).isEmpty = true
      · rw [if_pos hms, if_pos hms]
        rfl
      · rw [if_neg hms, if_neg hms]
        rfl
    rw [hfil, ih (fun x hx => hmem x (List.mem_cons_of_mem _ hx)),
      List.filter_cons]
    by_cases hms :
        (mr.rows.filter (fun a => keysMatch [rid] a b)).isEmpty = true
    · rw [if_pos hms, if_pos hms, List.map_cons]
      rfl
    · rw [if_neg hms, if_neg hms]
      rfl

/-- Every right-table column survives into the indicator merge's column
list. -/
theorem mem_mergeInd_cols (mrcols Rcols : List String) (rid : String)
    (suf : String × String)
    (hint2 : ∀ c ∈ mrcols, c ∈ Rcols → c = rid) (hrid1 : rid ∈ mrcols) :
    ∀ c ∈ Rcols, c ∈ mergeCols mrcols Rcols [rid] suf ++ ["_merge"] := by
  intro c hc
  apply List.mem_append_left
  rw [mergeCols_id mrcols Rcols rid suf hint2]
  by_cases hcr : c = rid
  · apply List.mem_append_left
    rw [hcr]
    exact hrid1
  · apply List.mem_append_right
    exact List.mem_filter.mpr ⟨hc, by simp [hcr]⟩

/-- The natural join's common-column list is the whole right column list. -/
theorem natural_ks_eq (mrcols Rcols : List String) (rid : String)
    (suf : String × String)
    (hint2 : ∀ c ∈ mrcols, c ∈ Rcols → c = rid) (hrid1 : rid ∈ mrcols) :
    Rcols.filter (fun c =>
        decide (c ∈ mergeCols mrcols Rcols [rid] suf ++ ["_merge"])) =
      Rcols := by
  apply List.filter_eq_self.mpr
  intro c hc
  exact decide_eq_true (mem_mergeInd_cols mrcols Rcols rid suf hint2 hrid1 c hc)

/-- Pairwise-distinct key values make the key a unique identifier. -/
theorem pairwise_key_unique (rid : String) :
    ∀ l : List Row,
      l.Pairwise (fun b1 b2 => Row.getD b1 rid ≠ Row.getD b2 rid) →
      ∀ b1 ∈ l, ∀ b2 ∈ l, Row.getD b1 rid = Row.getD b2 rid → b1 = b2 := by
  intro l
  induction l with
  | nil => intro _ b1 h1; cases h1
  | cons x xs ih =>
    intro hp b1 h1 b2 h2 he
    rw [List.pairwise_cons] at hp
    rcases List.mem_cons.mp h1 with rfl | h1'
    · rcases List.mem_cons.mp h2 with rfl | h2'
      · rfl
      · exact absurd he (hp.1 b2 h2')
    · rcases List.mem_cons.mp h2 with rfl | h2'
      · exact absurd he.symm (hp.1 b1 h1')
      · exact ih hp.2 b1 h1' b2 h2' he

/-- A natural merge whose left columns are all shared joins on all of them. -/
theorem naturalMerge_all_common (l r : Table)
    (hall : ∀ c ∈ l.cols, c ∈ r.cols) (hne : l.cols ≠ []) :
    naturalMerge l r = Except.ok (mergeOn l r l.cols ("_x", "_y")) := by
  have hfeq : l.cols.filter (fun c => decide (c ∈ r.cols)) = l.cols :=
    List.filter_eq_self.mpr (fun c hc => decide_eq_true (hall c hc))
  rw [naturalMerge, hfeq, if_neg (by simp only [List.isEmpty_iff]; exact hne)]

/-- **Claim C7.** For a match set and right table with well-formed rows,
duplicate-free right columns, pairwise-distinct right key values, the key
present in both frames, no lingering `_merge` column, and no shared column
besides the key, `unmatched` succeeds and returns a table in the right
table's original column set whose rows are exactly the right rows whose key
value does not appear in the match set's right-key column, each exactly once
(the output row list is duplicate-free), in the right table's order; in
particular no right record whose key appears in the match set is in the
output. -/
theorem unmatched_correct (m : Matcher) (match_results : Table)
    (hwfm : ∀ r ∈ match_results.rows, r.map Prod.fst = match_results.cols)
    (hwfr : ∀ r ∈ m.right_data.rows, r.map Prod.fst = m.right_data.cols)
    (hnod : m.right_data.cols.Nodup)
    (hkey : m.right_data.rows.Pairwise (fun b1 b2 =>
      Row.getD b1 m.right_id_field ≠ Row.getD b2 m.right_id_field))
    (hrid1 : m.right_id_field ∈ match_results.cols)
    (hrid2 : m.right_id_field ∈ m.right_data.cols)
    (hmg1 : "_merge" ∉ match_results.cols)
    (hmg2 : "_merge" ∉ m.right_data.cols)
    (hint : ∀ c ∈ match_results.cols,
      c ∈ m.right_data.cols → c = m.right_id_field) :
    m.unmatched match_results = Except.ok
      { cols := m.right_data.cols
        rows := m.right_data.rows.filter (fun b =>
          decide (∀ a ∈ match_results.rows,
            Row.get a m.right_id_field ≠ Row.get b m.right_id_field)) } ∧
    (m.right_data.rows.filter (fun b =>
        decide (∀ a ∈ match_results.rows,
          Row.get a m.right_id_field ≠ Row.get b m.right_id_field))).Nodup := by
  have hnodr : m.right_data.rows.Nodup :=
    hkey.imp (fun h => fun he => h (by rw [he]))
  have hkeyU : ∀ b1 ∈ m.right_data.rows, ∀ b2 ∈ m.right_data.rows,
      Row.getD b1 m.right_id_field = Row.getD b2 m.right_id_field →
        b1 = b2 :=
    pairwise_key_unique m.right_id_field m.right_data.rows hkey
  have hor : ¬("_merge" ∈ match_results.cols ∨ "_merge" ∈ m.right_data.cols) := by
    intro hor
    rcases hor with h | h
    · exact hmg1 h
    · exact hmg2 h
  have h1 : rightMergeInd match_results m.right_data m.right_id_field
      ("_x", "_y") =
      Except.ok (rightMergeTable match_results m.right_data m.right_id_field) := by
    rw [rightMergeInd, if_pos ⟨hrid1, hrid2⟩, if_neg hor, rightMergeTable]
  have h3 : Table.filterEq
      (rightMergeTable match_results m.right_data m.right_id_field)
      "_merge" (Value.str "right_only") =
      roTable match_results m.right_data m.right_id_field := by
    rw [Table.filterEq, rightMergeTable, roTable]
    refine congrArg (Table.mk _) ?_
    exact filter_rightRowsAll match_results m.right_data m.right_id_field hwfm
      hmg1 hmg2 hint m.right_data.rows hwfr
  have h5 : naturalMerge m.right_data
      (roTable match_results m.right_data m.right_id_field) =
      Except.ok (mergeOn m.right_data
        (roTable match_results m.right_data m.right_id_field)
        m.right_data.cols ("_x", "_y")) :=
    naturalMerge_all_common m.right_data _
      (fun c hc => mem_mergeInd_cols match_results.cols m.right_data.cols
        m.right_id_field ("_x", "_y") hint hrid1 c hc)
      (List.ne_nil_of_mem hrid2)
  have h26 : m.unmatched match_results =
      selectCols (mergeOn m.right_data
        (roTable match_results m.right_data m.right_id_field)
        m.right_data.cols ("_x", "_y")) m.right_data.cols := by
    rw [Matcher.unmatched, h1]
    show (match naturalMerge m.right_data
        (Table.filterEq
          (rightMergeTable match_results m.right_data m.right_id_field)
          "_merge" (Value.str "right_only")) with
      | Except.error e => Except.error e
      | Except.ok joined => selectCols joined m.right_data.cols) = _
    rw [h3, h5]
  have hall2 : (m.right_data.cols.all (fun c => decide (c ∈
      (mergeOn m.right_data
        (roTable match_results m.right_data m.right_id_field)
        m.right_data.cols ("_x", "_y")).cols))) = true := by
    apply List.all_eq_true.mpr
    intro c hc
    show decide (c ∈ (mergeOn m.right_data
      (roTable match_results m.right_data m.right_id_field)
      m.right_data.cols ("_x", "_y")).cols) = true
    apply decide_eq_true
    show c ∈ mergeCols m.right_data.cols
      (roTable match_results m.right_data m.right_id_field).cols
      m.right_data.cols ("_x", "_y")
    apply List.mem_append_left
    exact List.mem_map.mpr ⟨c, hc, renameLeft_id_of_mem_ks _ _ _ _ hc⟩
  have hpred : m.right_data.rows.filter (fun b =>
      (match_results.rows.filter (fun a =>
        keysMatch [m.right_id_field] a b)).isEmpty) =
      m.right_data.rows.filter (fun b =>
        decide (∀ a ∈ match_results.rows,
          Row.get a m.right_id_field ≠ Row.get b m.right_id_field)) := by
    apply List.filter_congr
    intro b _
    exact isEmpty_filter_keysMatch match_results.rows m.right_id_field b
  have hproj : ∀ b ∈ m.right_data.rows.filter (fun b' =>
      (match_results.rows.filter (fun a =>
        keysMatch [m.right_id_field] a b')).isEmpty),
      ((fun r => projectRow m.right_data.cols r) ∘ (fun b' =>
        combineRow m.right_data.cols
          (roTable match_results m.right_data m.right_id_field).cols
          m.right_data.cols ("_x", "_y") b'
          (rightOnlyRow match_results.cols m.right_data.cols
            m.right_id_field ("_x", "_y") b' ++
            [("_merge", Value.str "right_only")]))) b = id b := by
    intro b hbf
    have hbR : b ∈ m.right_data.rows := List.mem_of_mem_filter hbf
    have hbw : b.map Prod.fst = m.right_data.cols := hwfr b hbR
    show projectRow m.right_data.cols (combineRow m.right_data.cols
      (roTable match_results m.right_data m.right_id_field).cols
      m.right_data.cols ("_x", "_y") b
      (rightOnlyRow match_results.cols m.right_data.cols
        m.right_id_field ("_x", "_y") b ++
        [("_merge", Value.str "right_only")])) = id b
    have hren : renameRowKeys (renameLeft
        (roTable match_results m.right_data m.right_id_field).cols
        m.right_data.cols "_x") b = b := by
      apply renameRowKeys_id
      intro p hp
      have hp1 : p.1 ∈ m.right_data.cols := by
        rw [← hbw]
        exact List.mem_map.mpr ⟨p, hp, rfl⟩
      exact renameLeft_id_of_mem_ks _ _ _ _ hp1
    rw [combineRow, hren,
      projectRow_append_left m.right_data.cols b _
        (fun c hc => by rw [hbw]; exact hc),
      projectRow_wf b _ hbw hnod]
    rfl
  refine ⟨?_, List.Nodup.filter _ hnodr⟩
  rw [h26, selectCols, if_pos hall2]
  refine congrArg Except.ok ?_
  refine congrArg (Table.mk _) ?_
  show (innerRows m.right_data.cols
      (combineRow m.right_data.cols
        (roTable match_results m.right_data m.right_id_field).cols
        m.right_data.cols ("_x", "_y"))
      ((m.right_data.rows.filter (fun b' =>
          (match_results.rows.filter (fun a =>
            keysMatch [m.right_id_field] a b')).isEmpty)).map
        (fun b' => rightOnlyRow match_results.cols m.right_data.cols
          m.right_id_field ("_x", "_y") b' ++
          [("_merge", Value.str "right_only")]))
      m.right_data.rows).map (fun r => projectRow m.right_data.cols r) = _
  rw [innerRows_roList match_results m.right_data m.right_id_field
    (roTable match_results m.right_data m.right_id_field).cols hwfr hnodr
    hkeyU hint hrid1 hrid2 m.right_data.rows (fun _ hx => hx),
    List.map_map, List.map_congr_left hproj, List.map_id]
  exact hpred

/-- Witness for the `unmatched` correctness theorem: with one match made
(onto key 100) out of two right records (keys 100 and 101), the output is
exactly the one unmatched record, with the right table's columns. -/
theorem unmatched_correct_witness :
    (mUnm.unmatched unmMR = Except.ok
      { cols := mUnm.right_data.cols
        rows := mUnm.right_data.rows.filter (fun b =>
          decide (∀ a ∈ unmMR.rows,
            Row.get a mUnm.right_id_field ≠ Row.get b mUnm.right_id_field)) } ∧
      (mUnm.right_data.rows.filter (fun b =>
          decide (∀ a ∈ unmMR.rows,
            Row.get a mUnm.right_id_field ≠
              Row.get b mUnm.right_id_field))).Nodup) ∧
    mUnm.unmatched unmMR = Except.ok
      { cols := ["id2", "name"]
        rows := [[("id2", Value.int 101), ("name", Value.str "Bea")]] } := by
  have h := unmatched_correct mUnm unmMR (by decide) (by decide) (by decide)
    (by decide) (by decide) (by decide) (by decide) (by decide) (by decide)
  refine ⟨h, ?_⟩
  rw [h.1]
  rfl

end Matchstick
